import Mathlib

/-!
# joseki: dictionary-backed trie store and query operators

A shallow embedding of `graph/bimap.go`, `graph/hdtGraph.go`, `rdf/triple.go`,
`sparql/tripleNode.go`, `sparql/unionNode.go` and
`parser/tokens/separatorTokens.go`.

Conventions of the embedding.

* A Go map used only through lookup, assignment and `delete` is a function
  into `Option` (`keyToValue`, `valueToKey`).  A Go map that is also ranged
  over (`bitmapNode.sons`) is an association list; the order of the list
  stands for one iteration order of the map.
* A method that mutates its receiver through a pointer returns the new value.
* A run-time panic is a value of `Fault` in `Except`.
* Goroutines are run one after the other.  A traversal returns what it sent
  on the output channel, the number of `wg.Done()` calls it made itself and
  the nodes it handed to `bitmapNode.updateCounter`.  How a `Filter` call ends
  for the consumer of the channel (`FilterRun.outcome`) follows from comparing
  all the `wg.Done()` calls with the number given to `wg.Add`.
* Go `int` identifiers are `Int`; the counter `nextID` only grows by one per
  registered term, so 64-bit wrap-around is out of reach.
* A Go `error` is an `Option String`, `none` for nil; a value received with the
  comma-ok idiom is an `Option` or a pair with the flag.
* What a channel carries is the list of the values sent, in order.
-/

namespace Joseki

/-! ## RDF terms (package `rdf`) -/

/-- Modelled from the spec: the term type `rdf.Node`, whose declaration is not
among the sources.  A term is a resource (IRI), a literal, a blank node or a
query variable, each carrying its text. -/
inductive Node where
  | URI (value : String)
  | Literal (value : String)
  | BlankNode (value : String)
  | Variable (value : String)
  deriving DecidableEq

/-- The type assertion `node.(rdf.BlankNode)`, second result. -/
def Node.isBnode : Node → Bool
  | Node.BlankNode _ => true
  | _ => false

/-- The struct `rdf.Triple`. -/
structure Triple where
  Subject : Node
  Predicate : Node
  Object : Node
  deriving DecidableEq

/-- The constructor `rdf.NewTriple`. -/
def NewTriple (subject predicate object : Node) : Triple :=
  ⟨subject, predicate, object⟩

/-! ## The dictionary (`graph/bimap.go`) -/

/-- Assignment `m[k] = v` on a Go map modelled as a function. -/
def mapSet {κ ν : Type} [DecidableEq κ] (m : κ → Option ν) (k : κ) (v : ν) : κ → Option ν :=
  fun x => if x = k then some v else m x

/-- The builtin `delete(m, k)` on a Go map modelled as a function. -/
def mapDelete {κ ν : Type} [DecidableEq κ] (m : κ → Option ν) (k : κ) : κ → Option ν :=
  fun x => if x = k then none else m x

/-- The struct `bimap`. -/
structure bimap where
  keyToValue : Int → Option Node
  valueToKey : Node → Option Int

/-- The constructor `newBimap`: two empty maps. -/
def newBimap : bimap :=
  ⟨fun _ => none, fun _ => none⟩

/-- The method `bimap.push`. -/
def bimap.push (b : bimap) (key : Int) (value : Node) : bimap :=
  let b1 : bimap :=
    match b.keyToValue key with
    | some previousValue =>
      ⟨mapSet b.keyToValue key value, mapDelete b.valueToKey previousValue⟩
    | none => ⟨mapSet b.keyToValue key value, b.valueToKey⟩
  match b1.valueToKey value with
  | some previousKey =>
    ⟨mapDelete b1.keyToValue previousKey, mapSet b1.valueToKey value key⟩
  | none => ⟨b1.keyToValue, mapSet b1.valueToKey value key⟩

/-- The method `bimap.locate`: the key of a value and whether it is mapped; the
key is Go's zero value `0` when it is not. -/
def bimap.locate (b : bimap) (value : Node) : Int × Bool :=
  match b.valueToKey value with
  | some key => (key, true)
  | none => (0, false)

/-- The method `bimap.extract`: `some value` stands for `(value, true)` and
`none` for `(nil, false)`. -/
def bimap.extract (b : bimap) (key : Int) : Option Node :=
  b.keyToValue key

/-! ## The trie (`bitmapNode`, used by `graph/hdtGraph.go`) -/

/-- Modelled from the spec: the struct `bitmapNode`, whose declaration is not
among the sources: an identifier and a set of child nodes keyed by child
identifier. -/
inductive bitmapNode where
  | mk (id : Int) (sons : List (Int × bitmapNode))

/-- The field `id`. -/
def bitmapNode.id : bitmapNode → Int
  | bitmapNode.mk i _ => i

/-- The field `sons`. -/
def bitmapNode.sons : bitmapNode → List (Int × bitmapNode)
  | bitmapNode.mk _ s => s

/-- The lookup `sons[id]` with its presence flag: `none` is the nil pointer. -/
def sonsGet : List (Int × bitmapNode) → Int → Option bitmapNode
  | [], _ => none
  | (k, n) :: rest, id => if k = id then some n else sonsGet rest id

/-- The assignment `sons[id] = n`: replaces the entry of `id` where it stands,
or adds one. -/
def sonsPut : List (Int × bitmapNode) → Int → bitmapNode → List (Int × bitmapNode)
  | [], id, n => [(id, n)]
  | (k, m) :: rest, id, n =>
    if k = id then (k, n) :: rest else (k, m) :: sonsPut rest id n

/-- Modelled from the spec: `newBitmapNode`, a node without children. -/
def newBitmapNode (id : Int) : bitmapNode :=
  bitmapNode.mk id []

/-- Modelled from the spec: `bitmapNode.addSon`, which creates the child `id`
of a node. -/
def bitmapNode.addSon (n : bitmapNode) (id : Int) : bitmapNode :=
  bitmapNode.mk n.id (sonsPut n.sons id (newBitmapNode id))

/-- Modelled from the spec: `bitmapNode.removeSons`, which removes all children
of a node. -/
def bitmapNode.removeSons (n : bitmapNode) : bitmapNode :=
  bitmapNode.mk n.id []

mutual
/-- Modelled from the spec: `bitmapNode.depth`, the maximum number of levels
beneath a node. -/
def bitmapNode.depth : bitmapNode → Nat
  | bitmapNode.mk _ sons => depthSons sons
/-- The maximum over a list of children of one plus the depth of the child. -/
def depthSons : List (Int × bitmapNode) → Nat
  | [] => 0
  | (_, n) :: rest => max (n.depth + 1) (depthSons rest)
end

/-- Modelled from the spec: `bitmapTriple.Triple`, which builds a triple by
reverse-resolving three identifiers through the dictionary and reports an error
when one of them is absent from it. -/
def bitmapTripleToTriple (dict : bimap) (subj pred obj : Int) : Option Triple :=
  match dict.extract subj, dict.extract pred, dict.extract obj with
  | some s, some p, some o => some (NewTriple s p o)
  | _, _, _ => none

/-! ## The graph store (`graph/hdtGraph.go`) -/

/-- The run-time panics of the store. -/
inductive Fault where
  | indexOutOfRange
  | nilDereference
  | notInDictionnary
  deriving DecidableEq

/-- The struct `HDTGraph`: the dictionary, the root of the trie and the next
free identifier.  The lock, the reader and the unused `triples` map are left
out. -/
structure HDTGraph where
  dictionnary : bimap
  root : bitmapNode
  nextID : Int

/-- The constructor `NewHDTGraph`. -/
def NewHDTGraph : HDTGraph :=
  ⟨newBimap, newBitmapNode (-1), 0⟩

/-- The method `HDTGraph.registerNode`: the store afterwards and the returned
identifier. -/
def HDTGraph.registerNode (g : HDTGraph) (node : Node) : HDTGraph × Int :=
  match g.dictionnary.locate node with
  | (_, false) =>
    ({ g with dictionnary := g.dictionnary.push g.nextID node, nextID := g.nextID + 1 },
      g.nextID + 1 - 1)
  | (key, true) => (g, key)

/-- The method `HDTGraph.updateNodes`, returning the updated node. -/
def updateNodes : bitmapNode → List Int → bitmapNode
  | root, [] => root
  | root, id :: rest =>
    match sonsGet root.sons id with
    | some node => bitmapNode.mk root.id (sonsPut root.sons id (updateNodes node rest))
    | none =>
      let root1 := root.addSon id
      match sonsGet root1.sons id with
      | some node => bitmapNode.mk root1.id (sonsPut root1.sons id (updateNodes node rest))
      | none => root1

/-- The method `HDTGraph.removeNodes`, returning the updated node. -/
def removeNodes (g : HDTGraph) : bitmapNode → List Node → Except Fault bitmapNode
  | _, [] => Except.error Fault.indexOutOfRange
  | root, node :: rest =>
    if node.isBnode then
      Except.ok root.removeSons
    else
      match g.dictionnary.locate node with
      | (refNodeID, true) =>
        match sonsGet root.sons refNodeID with
        | some son =>
          match removeNodes g son rest with
          | Except.ok son1 => Except.ok (bitmapNode.mk root.id (sonsPut root.sons refNodeID son1))
          | Except.error e => Except.error e
        | none => Except.ok root
      | (_, false) => Except.ok root

/-- What a traversal did: the triples sent on `out`, the number of its own
`wg.Done()` calls, and the nodes on which it called `updateCounter`. -/
structure Trace where
  out : List Triple
  done : Nat
  pruned : List bitmapNode

/-- The trace of doing nothing. -/
def Trace.empty : Trace :=
  ⟨[], 0, []⟩

/-- One trace after another. -/
def Trace.append (t u : Trace) : Trace :=
  ⟨t.out ++ u.out, t.done + u.done, t.pruned ++ u.pruned⟩

/-- The loop `for _, son := range sons { visit(son) }`. -/
def rangeSons (visit : bitmapNode → Except Fault Trace) :
    List (Int × bitmapNode) → Except Fault Trace
  | [] => Except.ok Trace.empty
  | (_, son) :: rest =>
    match visit son with
    | Except.error e => Except.error e
    | Except.ok t =>
      match rangeSons visit rest with
      | Except.error e => Except.error e
      | Except.ok u => Except.ok (t.append u)

/-- The loop `for key, son := range sons { if key != id { son.updateCounter(wg) } }`:
the nodes handed to `updateCounter`. -/
def prunedSons (sons : List (Int × bitmapNode)) (id : Int) : List bitmapNode :=
  (sons.filter (fun p => p.1 ≠ id)).map (fun p => p.2)

/-- The method `HDTGraph.queryNodes`; `root` is a pointer and `none` is nil. -/
def queryNodes (g : HDTGraph) :
    Option bitmapNode → List Node → List Int → Except Fault Trace
  | root, datas, triple =>
    if triple.length = 3 then
      match bitmapTripleToTriple g.dictionnary (triple.getD 0 0) (triple.getD 1 0)
          (triple.getD 2 0) with
      | none => Except.error Fault.notInDictionnary
      | some t => Except.ok ⟨[t], 1, []⟩
    else
      match datas with
      | [] => Except.error Fault.indexOutOfRange
      | node :: rest =>
        if node.isBnode then
          match root with
          | none => Except.error Fault.nilDereference
          | some r =>
            match rangeSons (fun son => queryNodes g (some son) rest (triple ++ [son.id]))
                r.sons with
            | Except.error e => Except.error e
            | Except.ok t => Except.ok ⟨t.out, t.done + 1, t.pruned⟩
        else
          match root with
          | none => Except.error Fault.nilDereference
          | some r =>
            let located := g.dictionnary.locate node
            let id := located.1
            let inDict := located.2
            let inSons := (sonsGet r.sons id).isSome
            let visited :=
              if inDict && (inSons || (sonsGet r.sons id).isNone) then
                queryNodes g (sonsGet r.sons id) rest (triple ++ [id])
              else Except.ok Trace.empty
            match visited with
            | Except.error e => Except.error e
            | Except.ok t =>
              Except.ok ⟨t.out, t.done + 1, t.pruned ++ prunedSons r.sons id⟩

/-- The method `HDTGraph.Add`. -/
def HDTGraph.Add (g : HDTGraph) (triple : Triple) : HDTGraph :=
  let r1 := g.registerNode triple.Subject
  let r2 := r1.1.registerNode triple.Predicate
  let r3 := r2.1.registerNode triple.Object
  { r3.1 with root := updateNodes r3.1.root [r1.2, r2.2, r3.2] }

/-- The method `HDTGraph.Delete`; its parameters are declared in the order
`subject, object, predicate`. -/
def HDTGraph.Delete (g : HDTGraph) (subject object predicate : Node) : Except Fault HDTGraph :=
  match removeNodes g g.root [subject, predicate, object] with
  | Except.ok root1 => Except.ok { g with root := root1 }
  | Except.error e => Except.error e

/-- What a call of `Filter` sets up: the number given to `wg.Add` and the
traversal it starts. -/
structure FilterRun where
  registered : Nat
  run : Except Fault Trace

/-- The method `HDTGraph.Filter`. -/
def HDTGraph.Filter (g : HDTGraph) (subject predicate object : Node) : FilterRun :=
  ⟨g.root.depth + 1, queryNodes g (some g.root) [subject, predicate, object] []⟩

/-- The triples the traversal started by a `Filter` call sends, its goroutines
run one after the other, `none` when the traversal panics.  This is the
traversal alone: whether the consumer of the channel receives these triples
depends on the completion count, which `FilterRun.outcome` accounts for. -/
def HDTGraph.emitted (g : HDTGraph) (subject predicate object : Node) : Option (List Triple) :=
  match (g.Filter subject predicate object).run with
  | Except.ok t => some t.out
  | Except.error _ => none

/-- Modelled from the spec: `bitmapNode.updateCounter`, which is not among the
sources: the number of `wg.Done()` calls made on behalf of a pruned branch, one
per level the descent into it would have explored. -/
def bitmapNode.updateCounter (n : bitmapNode) : Nat :=
  n.depth + 1

/-- All the `wg.Done()` calls of a traversal: its own and those of the
`updateCounter` calls on the pruned nodes. -/
def Trace.doneCalls (t : Trace) : Nat :=
  t.done + (t.pruned.map bitmapNode.updateCounter).sum

/-- How a `Filter` call ends for the consumer of the channel.

* `closed out`: the counter of the wait group reaches zero with the last
  `wg.Done()`, after every send; the consumer receives `out` (in the order of one
  schedule) and the channel is closed.
* `negativeCounter`: more `wg.Done()` calls are made than were registered; the
  counter reaches zero while calls are outstanding, the channel is closed early
  and the wait group panics on the next call.
* `neverClosed out`: fewer calls are made than were registered; `wg.Wait()`
  never returns, the channel is never closed and the lock is never released.
* `panicked e`: the traversal itself panics. -/
inductive Outcome where
  | closed (out : List Triple)
  | negativeCounter
  | neverClosed (out : List Triple)
  | panicked (e : Fault)
  deriving DecidableEq

/-- The end of a `Filter` call, from the number given to `wg.Add` and the
`wg.Done()` calls of the traversal. -/
def FilterRun.outcome (r : FilterRun) : Outcome :=
  match r.run with
  | Except.error e => Outcome.panicked e
  | Except.ok t =>
    if t.doneCalls = r.registered then Outcome.closed t.out
    else if r.registered < t.doneCalls then Outcome.negativeCounter
    else Outcome.neverClosed t.out

/-- The end of the call `Filter(subject, predicate, object)`. -/
def HDTGraph.FilterOutcome (g : HDTGraph) (subject predicate object : Node) : Outcome :=
  (g.Filter subject predicate object).outcome

/-- The store after adding the triples of a list, first to last, to the empty
store. -/
def addAll (ts : List Triple) : HDTGraph :=
  ts.foldl HDTGraph.Add NewHDTGraph

/-! ## Notions used to state the properties -/

/-- The two maps of a dictionary are inverse to each other. -/
def bimap.Bij (b : bimap) : Prop :=
  ∀ k v, b.keyToValue k = some v ↔ b.valueToKey v = some k

/-- The dictionary after a sequence of `push` calls on the empty one. -/
def pushAll (ops : List (Int × Node)) : bimap :=
  ops.foldl (fun b p => b.push p.1 p.2) newBimap

/-- The node reached from `n` by following a path of identifiers through
`sons`, when every step finds a child. -/
def nodeAt : bitmapNode → List Int → Option bitmapNode
  | n, [] => some n
  | n, id :: rest =>
    match sonsGet n.sons id with
    | some m => nodeAt m rest
    | none => none

/-- The identifier paths of length `n` beneath a node, read off the `id` fields
of the children in iteration order. -/
def pathsBelow : Nat → bitmapNode → List (List Int)
  | 0, _ => [[]]
  | n + 1, node => node.sons.flatMap (fun p => (pathsBelow n p.2).map (fun q => p.2.id :: q))

/-- Shape of a trie of at most `n` levels over a dictionary: children have
distinct keys, carry their key as `id`, are keys of the dictionary, and nodes at
level `n` have no children. -/
def TrieOK (d : bimap) : Nat → bitmapNode → Prop
  | 0, node => node.sons = []
  | n + 1, node =>
    (node.sons.map Prod.fst).Nodup ∧
      ∀ p ∈ node.sons, p.2.id = p.1 ∧ (d.extract p.1).isSome = true ∧ TrieOK d n p.2

/-- The dictionary `d1` keeps every entry of `d`. -/
def bimap.Le (d d1 : bimap) : Prop :=
  (∀ k v, d.keyToValue k = some v → d1.keyToValue k = some v) ∧
    ∀ v k, d.valueToKey v = some k → d1.valueToKey v = some k

/-- The dictionary of a store is a bijection whose keys lie from `0` below
`nextID`. -/
def HDTGraph.DictOK (g : HDTGraph) : Prop :=
  g.dictionnary.Bij ∧ 0 ≤ g.nextID ∧
    ∀ k, (g.dictionnary.keyToValue k).isSome = true → 0 ≤ k ∧ k < g.nextID

/-- Well-formedness of a store: the dictionary is a bijection, its keys are the
identifiers from `0` below `nextID`, and the trie has three well-shaped levels. -/
structure HDTGraph.WF (g : HDTGraph) : Prop where
  dict : g.DictOK
  trie : TrieOK g.dictionnary 3 g.root

/-- The stores reached from the empty store by `Add` calls and by `Delete`
calls that return. -/
inductive Reachable : HDTGraph → Prop where
  | empty : Reachable NewHDTGraph
  | add (g : HDTGraph) (t : Triple) : Reachable g → Reachable (g.Add t)
  | delete (g g1 : HDTGraph) (s o p : Node) :
      Reachable g → g.Delete s o p = Except.ok g1 → Reachable g1

/-- The triple `t` is recorded in the store: its three terms are in the
dictionary and the path of their identifiers is in the trie. -/
def HDTGraph.Stored (g : HDTGraph) (t : Triple) : Prop :=
  ∃ i j k, g.dictionnary.locate t.Subject = (i, true) ∧
    g.dictionnary.locate t.Predicate = (j, true) ∧
    g.dictionnary.locate t.Object = (k, true) ∧
    (nodeAt g.root [i, j, k]).isSome = true

/-- The store holds exactly the triples of `ts`: it is well formed, every
triple of `ts` is recorded, and every path of length three of the trie is the
path of a triple of `ts`. -/
def HDTGraph.Holds (g : HDTGraph) (ts : List Triple) : Prop :=
  g.WF ∧ (∀ t ∈ ts, g.Stored t) ∧
    ∀ i j k, (nodeAt g.root [i, j, k]).isSome = true →
      ∃ t ∈ ts, g.dictionnary.locate t.Subject = (i, true) ∧
        g.dictionnary.locate t.Predicate = (j, true) ∧
        g.dictionnary.locate t.Object = (k, true)

/-! ## Terms and triples of the examples -/

/-- The resource `ex:alice`. -/
def alice : Node := Node.URI "ex:alice"

/-- The resource `foaf:knows`. -/
def knows : Node := Node.URI "foaf:knows"

/-- The resource `ex:likes`. -/
def likes : Node := Node.URI "ex:likes"

/-- The resource `ex:bob`. -/
def bob : Node := Node.URI "ex:bob"

/-- The resource `ex:carol`. -/
def carol : Node := Node.URI "ex:carol"

/-- A blank node. -/
def anon : Node := Node.BlankNode "b0"

/-- The store of the scenario of the specification: `alice knows bob` and
`alice knows carol`. -/
def friends : HDTGraph :=
  addAll [⟨alice, knows, bob⟩, ⟨alice, knows, carol⟩]

/-- The keys of the children of a node. -/
def bitmapNode.keys (n : bitmapNode) : List Int :=
  n.sons.map Prod.fst

mutual
/-- The number of nodes of the tree below and including a node. -/
def bitmapNode.nodeCount : bitmapNode → Nat
  | bitmapNode.mk _ sons => nodeCountSons sons + 1
/-- The number of nodes of the trees of a list of children. -/
def nodeCountSons : List (Int × bitmapNode) → Nat
  | [] => 0
  | (_, n) :: rest => n.nodeCount + nodeCountSons rest
end

/-- The triple that `queryNodes` builds from the identifiers gathered on a
path. -/
def tripleOf (d : bimap) (ids : List Int) : Option Triple :=
  bitmapTripleToTriple d (ids.getD 0 0) (ids.getD 1 0) (ids.getD 2 0)

/-- The number of `wg.Done()` calls the traversal of a `Filter` call makes
itself, `none` when the traversal panics. -/
def HDTGraph.signals (g : HDTGraph) (subject predicate object : Node) : Option Nat :=
  match (g.Filter subject predicate object).run with
  | Except.ok t => some t.done
  | Except.error _ => none

/-! ## The union operator (`sparql/unionNode.go`) -/

/-- The loop of Go's `sort.Search(n, f)`: binary search between `i` and `j`,
with a bound on the number of rounds. -/
def searchLoop (f : Nat → Bool) : Nat → Nat → Nat → Nat
  | 0, i, _ => i
  | fuel + 1, i, j =>
    if i < j then
      let h := (i + j) / 2
      if !f h then searchLoop f fuel (h + 1) j else searchLoop f fuel i h
    else i

/-- The comparison `x < y` of Go strings on their characters, first difference
first (the order of the UTF-8 bytes is the order of the code points). -/
def stringLess : List Char → List Char → Bool
  | [], [] => false
  | [], _ :: _ => true
  | _ :: _, [] => false
  | a :: x, b :: y =>
    if a.toNat < b.toNat then true
    else if b.toNat < a.toNat then false
    else stringLess x y

/-- The comparison `x <= y` of Go strings. -/
def stringLe (x y : String) : Bool :=
  !stringLess y.toList x.toList

/-- Go's `sort.SearchStrings(a, x)`: binary search for the index of the first
element `a[i] >= x`; the interval halves each round, so `len(a) + 1` rounds
are enough. -/
def SearchStrings (a : List String) (x : String) : Nat :=
  searchLoop (fun i => stringLe x (a.getD i "")) (a.length + 1) 0 a.length

/-- Go's `sort.Strings`: sorting in increasing order. -/
def sortStrings (a : List String) : List String :=
  a.insertionSort (fun x y => stringLe x y = true)

/-- A child operator of the plan, seen through its method `bindingNames`. -/
structure sparqlNode where
  bindingNames : List String

/-- The struct `unionNode`. -/
structure unionNode where
  innerNode : sparqlNode
  outerNode : sparqlNode

/-- The method `unionNode.bindingNames`. -/
def unionNode.bindingNames (n : unionNode) : List String :=
  sortStrings
    (n.outerNode.bindingNames.foldl
      (fun bindingNames name =>
        if SearchStrings bindingNames name = bindingNames.length then bindingNames ++ [name]
        else bindingNames)
      n.innerNode.bindingNames)

/-! ## Equality of triples (`rdf/triple.go`) -/

/-- Modelled from the spec: the method `Equals` of the terms, which is not
among the sources.  Terms of one kind are compared by structural equality;
comparing terms of different kinds is an error. -/
def Node.Equals : Node → Node → Bool × Option String
  | Node.URI a, Node.URI b => (a == b, none)
  | Node.Literal a, Node.Literal b => (a == b, none)
  | Node.BlankNode a, Node.BlankNode b => (a == b, none)
  | Node.Variable a, Node.Variable b => (a == b, none)
  | _, _ => (false, some "mismatch type")

/-- The method `Triple.Equals`, over the comparison `equals` of two terms: the
result and the error, `none` for `nil`. -/
def Triple.Equals (equals : Node → Node → Bool × Option String) (t other : Triple) :
    Bool × Option String :=
  match equals t.Subject other.Subject with
  | (_, some err) => (false, some err)
  | (testSubj, none) =>
    match equals t.Predicate other.Predicate with
    | (_, some err) => (false, some err)
    | (testPred, none) =>
      match equals t.Object other.Object with
      | (_, some err) => (false, some err)
      | (testObj, none) => (testSubj && testPred && testObj, none)

/-! ## The leaf pattern operator (`sparql/tripleNode.go`) -/

/-- The type assertion `node.(rdf.Variable)`: the name of the variable and
whether the term is one; the name is empty when it is not. -/
def Node.asVariable : Node → String × Bool
  | Node.Variable value => (value, true)
  | _ => ("", false)

/-- The interface `graph.Graph`, seen through the method the operator calls:
the triples `FilterSubset` streams, in order, for three terms (`none` is a nil
term), a limit and an offset. -/
structure Graph where
  FilterSubset : Option Node → Option Node → Option Node → Int → Int → List Triple

/-- The assignment `bindings[name] = term` on a map kept as an association
list in iteration order. -/
def bindingsPut : List (String × Node) → String → Node → List (String × Node)
  | [], name, term => [(name, term)]
  | (k, v) :: rest, name, term =>
    if k = name then (k, term) :: rest else (k, v) :: bindingsPut rest name term

/-- The lookup `bindings[name]`. -/
def bindingsGet : List (String × Node) → String → Option Node
  | [], _ => none
  | (k, v) :: rest, name => if k = name then some v else bindingsGet rest name

/-- Modelled from the spec: the struct `rdf.BindingsGroup`, a mapping from
variable names to terms; the list is the map in one iteration order. -/
structure BindingsGroup where
  Bindings : List (String × Node)

/-- Modelled from the spec: `rdf.NewBindingsGroup`, the empty group. -/
def NewBindingsGroup : BindingsGroup :=
  ⟨[]⟩

/-- Modelled from the spec: `BindingsGroup.Clone`, an independent copy. -/
def BindingsGroup.Clone (group : BindingsGroup) : BindingsGroup :=
  ⟨group.Bindings⟩

/-- The struct `tripleNode`. -/
structure tripleNode where
  pattern : Triple
  graph : Graph
  limit : Int
  offset : Int

/-- The body of the loops of `execute` and `executeWith` over the returned
triples: the three guarded assignments into a group. -/
def bindFree (n : tripleNode) (freeSubject freePredicate freeObject : Bool)
    (group : BindingsGroup) (triple : Triple) : BindingsGroup :=
  let g1 : BindingsGroup :=
    if freeSubject then ⟨bindingsPut group.Bindings n.pattern.Subject.asVariable.1 triple.Subject⟩
    else group
  let g2 : BindingsGroup :=
    if freePredicate then
      ⟨bindingsPut g1.Bindings n.pattern.Predicate.asVariable.1 triple.Predicate⟩
    else g1
  if freeObject then ⟨bindingsPut g2.Bindings n.pattern.Object.asVariable.1 triple.Object⟩
  else g2

/-- The method `tripleNode.execute`: the groups sent on the output channel, in
order. -/
def tripleNode.execute (n : tripleNode) : List BindingsGroup :=
  (n.graph.FilterSubset (some n.pattern.Subject) (some n.pattern.Predicate)
      (some n.pattern.Object) n.limit n.offset).map
    (fun triple =>
      bindFree n n.pattern.Subject.asVariable.2 n.pattern.Predicate.asVariable.2
        n.pattern.Object.asVariable.2 NewBindingsGroup triple)

/-- The local variables of `executeWith` that its first loop assigns: the
three query terms (`none` is nil) and the three flags. -/
structure Completion where
  querySubj : Option Node
  queryPred : Option Node
  queryObj : Option Node
  freeSubject : Bool
  freePredicate : Bool
  freeObject : Bool

/-- One round of the loop `for bindingKey, bindingValue := range group.Bindings`
of `executeWith`. -/
def completeStep (n : tripleNode) (st : Completion) (binding : String × Node) : Completion :=
  let st1 : Completion :=
    if st.freeSubject && n.pattern.Subject.asVariable.1 == binding.1 then
      { st with querySubj := some binding.2, freeSubject := false }
    else { st with querySubj := some n.pattern.Subject }
  let st2 : Completion :=
    if st1.freePredicate && n.pattern.Predicate.asVariable.1 == binding.1 then
      { st1 with queryPred := some binding.2, freePredicate := false }
    else { st1 with queryPred := some n.pattern.Predicate }
  if st2.freeObject && n.pattern.Object.asVariable.1 == binding.1 then
    { st2 with queryObj := some binding.2, freeObject := false }
  else { st2 with queryObj := some n.pattern.Object }

/-- The first loop of `executeWith`, from the declarations of the query terms
and the three type assertions. -/
def tripleNode.complete (n : tripleNode) (group : BindingsGroup) : Completion :=
  group.Bindings.foldl (completeStep n)
    ⟨none, none, none, n.pattern.Subject.asVariable.2, n.pattern.Predicate.asVariable.2,
      n.pattern.Object.asVariable.2⟩

/-- The method `tripleNode.executeWith`: the groups sent on the output
channel, in order. -/
def tripleNode.executeWith (n : tripleNode) (group : BindingsGroup) : List BindingsGroup :=
  let st := n.complete group
  (n.graph.FilterSubset st.querySubj st.queryPred st.queryObj n.limit n.offset).map
    (fun triple =>
      bindFree n st.freeSubject st.freePredicate st.freeObject group.Clone triple)

/-- The method `tripleNode.bindingNames`. -/
def tripleNode.bindingNames (n : tripleNode) : List String :=
  let names1 : List String :=
    if n.pattern.Subject.asVariable.2 then [] ++ [n.pattern.Subject.asVariable.1] else []
  let names2 : List String :=
    if n.pattern.Predicate.asVariable.2 then names1 ++ [n.pattern.Predicate.asVariable.1]
    else names1
  let names3 : List String :=
    if n.pattern.Object.asVariable.2 then names2 ++ [n.pattern.Object.asVariable.1] else names2
  sortStrings names3

/-- The names of the variables at the three positions of a pattern, in the
order subject, predicate, object. -/
def variableNames (pattern : Triple) : List String :=
  [pattern.Subject, pattern.Predicate, pattern.Object].filterMap
    (fun term => if term.asVariable.2 then some term.asVariable.1 else none)

/-- A graph whose `FilterSubset` streams a fixed list of triples. -/
def constGraph (ts : List Triple) : Graph :=
  ⟨fun _ _ _ _ _ => ts⟩

/-- The triple `t` has equal terms at the positions of the pattern that carry
the same variable. -/
def agreesWith (pattern t : Triple) : Prop :=
  (pattern.Subject.asVariable.2 = true → pattern.Predicate.asVariable.2 = true →
      pattern.Subject.asVariable.1 = pattern.Predicate.asVariable.1 →
      t.Subject = t.Predicate) ∧
    (pattern.Subject.asVariable.2 = true → pattern.Object.asVariable.2 = true →
      pattern.Subject.asVariable.1 = pattern.Object.asVariable.1 → t.Subject = t.Object) ∧
    (pattern.Predicate.asVariable.2 = true → pattern.Object.asVariable.2 = true →
      pattern.Predicate.asVariable.1 = pattern.Object.asVariable.1 →
      t.Predicate = t.Object)

/-- The leaf of the examples: the pattern `?s knows ?o` over a graph that
streams `alice knows bob`. -/
def leafExample : tripleNode :=
  ⟨⟨Node.Variable "s", knows, Node.Variable "o"⟩, constGraph [⟨alice, knows, bob⟩], 0, 0⟩

/-- The store after a sequence of `registerNode` calls, with the identifiers
the calls returned. -/
def registerAll (g : HDTGraph) : List Node → HDTGraph × List Int
  | [] => (g, [])
  | node :: rest =>
    ((registerAll (g.registerNode node).1 rest).1,
      (g.registerNode node).2 :: (registerAll (g.registerNode node).1 rest).2)

/-- The terms of `acc` followed by the terms of a list that are new, each once,
in the order of their first occurrence. -/
def distinctFrom (acc : List Node) : List Node → List Node
  | [] => acc
  | node :: rest => distinctFrom (if node ∈ acc then acc else acc ++ [node]) rest

/-- The dictionary of the store maps the terms of `acc`, which are distinct, to
their positions in `acc`, and `nextID` is the number of these terms. -/
def HDTGraph.DictIs (g : HDTGraph) (acc : List Node) : Prop :=
  g.nextID = acc.length ∧ acc.Nodup ∧
    (∀ v, g.dictionnary.valueToKey v =
      if v ∈ acc then some ((acc.indexOf v : Nat) : Int) else none) ∧
    ∀ k : Int, g.dictionnary.keyToValue k = if 0 ≤ k then acc[k.toNat]? else none

/-! ## Separator tokens (`parser/tokens/separatorTokens.go`) -/

/-- A value held by the parse stack: a term, or a value of another type (nil
included). -/
inductive StackItem where
  | node (n : Node)
  | other
  deriving DecidableEq

/-- The type assertion `item.(rdf.Node)`: `none` when it fails. -/
def StackItem.asNode : StackItem → Option Node
  | StackItem.node n => some n
  | StackItem.other => none

/-- Modelled from the spec: the parse stack `Stack`, whose declaration is not
among the sources, is the list of its values, top first; `Len` is its length. -/
def stackLen (nodeStack : List StackItem) : Nat :=
  nodeStack.length

/-- Modelled from the spec: `Stack.Pop`, the top value and the rest of the
stack; nil on an empty stack. -/
def stackPop : List StackItem → StackItem × List StackItem
  | [] => (StackItem.other, [])
  | top :: rest => (top, rest)

/-- Modelled from the spec: `Stack.Push`. -/
def stackPush (nodeStack : List StackItem) (n : Node) : List StackItem :=
  StackItem.node n :: nodeStack

/-- The struct `tokenPosition`, whose declaration is not among the sources:
the line and the row given to the constructors of the tokens. -/
structure tokenPosition where
  lineNumber : Int
  rowNumber : Int

/-- The struct `TokenEnd`. -/
structure TokenEnd where
  pos : tokenPosition

/-- The struct `TokenSep`. -/
structure TokenSep where
  value : String
  pos : tokenPosition

/-- What a call of `Interpret` did: the error returned (`none` is nil), the
stack afterwards and the triples sent on `out`. -/
structure Interpreted where
  err : Option String
  nodeStack : List StackItem
  out : List Triple

/-- The method `TokenEnd.Interpret`, over the text `position` gives for the
position of a token.  The parameter `prefixes` is not used. -/
def TokenEnd.Interpret (position : tokenPosition → String) (t : TokenEnd)
    (nodeStack : List StackItem) : Interpreted :=
  if stackLen nodeStack > 3 then
    ⟨some ("encountered a malformed triple pattern at " ++ position t.pos), nodeStack, []⟩
  else
    let p1 := stackPop nodeStack
    let p2 := stackPop p1.2
    let p3 := stackPop p2.2
    match p1.1.asNode, p2.1.asNode, p3.1.asNode with
    | some object, some predicate, some subject =>
      ⟨none, p3.2, [NewTriple subject predicate object]⟩
    | _, _, _ => ⟨some "expected a Node in stack but doesn't found it", p3.2, []⟩

/-- The method `TokenSep.Interpret`, over the text `position` gives for the
position of a token and the number `random` drawn by `rand.Int()`.  The
parameter `prefixes` is not used. -/
def TokenSep.Interpret (position : tokenPosition → String) (random : Int) (t : TokenSep)
    (nodeStack : List StackItem) : Interpreted :=
  if t.value = "[" then
    if stackLen nodeStack > 2 then
      ⟨some ("encountered a malformed triple pattern at " ++ position t.pos), nodeStack, []⟩
    else
      let p1 := stackPop nodeStack
      let p2 := stackPop p1.2
      let object := Node.BlankNode ("v" ++ toString random)
      match p1.1.asNode, p2.1.asNode with
      | some predicate, some subject =>
        ⟨none, stackPush p2.2 object, [NewTriple subject predicate object]⟩
      | _, _ => ⟨some "expected a Node in stack but doesn't found it", p2.2, []⟩
  else
    if stackLen nodeStack > 3 then
      ⟨some ("encountered a malformed triple pattern at " ++ position t.pos), nodeStack, []⟩
    else
      let p1 := stackPop nodeStack
      let p2 := stackPop p1.2
      let p3 := stackPop p2.2
      match p1.1.asNode, p2.1.asNode, p3.1.asNode with
      | some object, some predicate, some subject =>
        if t.value = ";" then
          ⟨none, stackPush p3.2 subject, [NewTriple subject predicate object]⟩
        else if t.value = "," then
          ⟨none, stackPush (stackPush p3.2 subject) predicate,
            [NewTriple subject predicate object]⟩
        else
          ⟨some ("Unexpected separator token " ++ t.value ++ " - at " ++ position t.pos),
            p3.2, [NewTriple subject predicate object]⟩
      | _, _, _ => ⟨some "expected a Node in stack but doesn't found it", p3.2, []⟩

/-- A text for the position of a token, for the examples. -/
def positionText (p : tokenPosition) : String :=
  "line " ++ toString p.lineNumber ++ ", row " ++ toString p.rowNumber

/-! # Properties -/

theorem newBimap_bij : newBimap.Bij := by
  intro k v; simp [newBimap]

theorem push_bij (b : bimap) (h : b.Bij) (key : Int) (value : Node) :
    (b.push key value).Bij := by
  intro k v
  unfold bimap.push
  cases hk : b.keyToValue key with
  | none =>
    cases hv : b.valueToKey value with
    | none =>
      simp only [hv, mapSet]
      by_cases h1 : k = key <;> by_cases h2 : v = value
      · simp [h1, h2]
      · subst h1
        simp only [if_pos, if_neg h2]
        constructor
        · intro e; exact absurd (Option.some.inj e).symm h2
        · intro e; rw [← h k v] at e; rw [hk] at e; exact absurd e (by simp)
      · subst h2
        simp only [if_pos, if_neg h1]
        constructor
        · intro e; rw [h k v] at e; rw [hv] at e; exact absurd e (by simp)
        · intro e; exact absurd (Option.some.inj e).symm h1
      · simp only [if_neg h1, if_neg h2]; exact h k v
    | some pk =>
      simp only [hv, mapSet, mapDelete]
      have hpk : b.keyToValue pk = some value := (h pk value).2 hv
      have hne : pk ≠ key := by intro e; rw [e, hk] at hpk; exact absurd hpk (by simp)
      by_cases h1 : k = key <;> by_cases h2 : v = value
      · subst h1; subst h2; simp [hne.symm]
      · subst h1
        simp only [if_neg hne.symm, if_pos, if_neg h2]
        constructor
        · intro e; exact absurd (Option.some.inj e).symm h2
        · intro e; rw [← h k v] at e; rw [hk] at e; exact absurd e (by simp)
      · subst h2
        simp only [if_pos, if_neg h1]
        constructor
        · intro e
          by_cases h3 : k = pk
          · simp [h3] at e
          · simp only [if_neg h3] at e
            rw [h k v] at e; rw [hv] at e; exact absurd (Option.some.inj e).symm h3
        · intro e; exact absurd (Option.some.inj e).symm h1
      · simp only [if_neg h1, if_neg h2]
        by_cases h3 : k = pk
        · subst h3
          simp only [if_pos]
          constructor
          · intro e; exact absurd e (by simp)
          · intro e; rw [← h k v] at e; rw [hpk] at e; exact absurd (Option.some.inj e).symm h2
        · simp only [if_neg h3]; exact h k v
  | some pv =>
    have hpv : b.valueToKey pv = some key := (h key pv).1 hk
    dsimp only []
    cases hv : (mapDelete b.valueToKey pv) value with
    | none =>
      simp only [hv, mapSet, mapDelete]
      by_cases h1 : k = key <;> by_cases h2 : v = value
      · simp [h1, h2]
      · subst h1
        simp only [if_pos, if_neg h2]
        constructor
        · intro e; exact absurd (Option.some.inj e).symm h2
        · intro e
          by_cases h3 : v = pv
          · simp [h3] at e
          · simp only [if_neg h3] at e
            rw [← h k v] at e; rw [hk] at e; exact absurd (Option.some.inj e).symm h3
      · subst h2
        simp only [if_pos, if_neg h1]
        constructor
        · intro e
          rw [h k v] at e
          simp only [mapDelete] at hv
          by_cases h3 : v = pv
          · rw [h3, hpv] at e; exact absurd (Option.some.inj e).symm h1
          · simp only [if_neg h3] at hv; rw [hv] at e; exact absurd e (by simp)
        · intro e; exact absurd (Option.some.inj e).symm h1
      · simp only [if_neg h1, if_neg h2]
        by_cases h3 : v = pv
        · subst h3
          simp only [if_pos]
          constructor
          · intro e; rw [h k v] at e; rw [hpv] at e; exact absurd (Option.some.inj e).symm h1
          · intro e; exact absurd e (by simp)
        · simp only [if_neg h3]; exact h k v
    | some pk =>
      simp only [hv, mapSet, mapDelete]
      simp only [mapDelete] at hv
      have hvpv : value ≠ pv := by intro e; simp [e] at hv
      simp only [if_neg hvpv] at hv
      have hpk : b.keyToValue pk = some value := (h pk value).2 hv
      have hne : pk ≠ key := by
        intro e; rw [e, hk] at hpk; exact hvpv (Option.some.inj hpk).symm
      by_cases h1 : k = key <;> by_cases h2 : v = value
      · subst h1; subst h2; simp [hne.symm]
      · subst h1
        simp only [if_neg hne.symm, if_pos, if_neg h2]
        constructor
        · intro e; exact absurd (Option.some.inj e).symm h2
        · intro e
          by_cases h3 : v = pv
          · simp [h3] at e
          · simp only [if_neg h3] at e
            rw [← h k v] at e; rw [hk] at e; exact absurd (Option.some.inj e).symm h3
      · subst h2
        simp only [if_pos, if_neg h1]
        constructor
        · intro e
          by_cases h3 : k = pk
          · simp [h3] at e
          · simp only [if_neg h3] at e
            rw [h k v] at e; rw [hv] at e; exact absurd (Option.some.inj e).symm h3
        · intro e; exact absurd (Option.some.inj e).symm h1
      · simp only [if_neg h1, if_neg h2]
        by_cases h3 : k = pk <;> by_cases h4 : v = pv
        · subst h3; subst h4; simp
        · subst h3
          simp only [if_pos, if_neg h4]
          constructor
          · intro e; exact absurd e (by simp)
          · intro e; rw [← h k v] at e; rw [hpk] at e; exact absurd (Option.some.inj e).symm h2
        · subst h4
          simp only [if_pos, if_neg h3]
          constructor
          · intro e; rw [h k v] at e; rw [hpv] at e; exact absurd (Option.some.inj e).symm h1
          · intro e; exact absurd e (by simp)
        · simp only [if_neg h3, if_neg h4]; exact h k v


theorem foldl_push_bij (ops : List (Int × Node)) (b : bimap) (h : b.Bij) :
    (ops.foldl (fun b p => b.push p.1 p.2) b).Bij := by
  induction ops generalizing b with
  | nil => exact h
  | cons p rest ih => exact ih _ (push_bij b h p.1 p.2)

theorem locate_eq_iff (b : bimap) (v : Node) (k : Int) :
    b.locate v = (k, true) ↔ b.valueToKey v = some k := by
  unfold bimap.locate
  cases b.valueToKey v with
  | none => simp
  | some k1 => simp

/-- C1: after every sequence of `push` calls on an empty bimap, every key that
`extract` resolves is located back from its value, and every value that `locate`
resolves is extracted back from its key. -/
theorem C1_bijection_invariant (ops : List (Int × Node)) :
    (∀ k v, (pushAll ops).extract k = some v → (pushAll ops).locate v = (k, true)) ∧
    (∀ v k, (pushAll ops).locate v = (k, true) → (pushAll ops).extract k = some v) := by
  have h : (pushAll ops).Bij := foldl_push_bij ops newBimap newBimap_bij
  constructor
  · intro k v e
    exact (locate_eq_iff _ v k).2 ((h k v).1 e)
  · intro v k e
    exact (h k v).2 ((locate_eq_iff _ v k).1 e)

/-! ## Association lists of children -/

theorem sonsGet_sonsPut_same (l : List (Int × bitmapNode)) (id : Int) (n : bitmapNode) :
    sonsGet (sonsPut l id n) id = some n := by
  induction l with
  | nil => simp [sonsPut, sonsGet]
  | cons p rest ih =>
    obtain ⟨k, m⟩ := p
    by_cases h : k = id
    · simp [sonsPut, sonsGet, h]
    · simp [sonsPut, sonsGet, h, ih]

theorem sonsGet_sonsPut_other (l : List (Int × bitmapNode)) (id k : Int) (n : bitmapNode)
    (h : k ≠ id) : sonsGet (sonsPut l id n) k = sonsGet l k := by
  induction l with
  | nil => simp [sonsPut, sonsGet, Ne.symm h]
  | cons p rest ih =>
    obtain ⟨k1, m⟩ := p
    by_cases h1 : k1 = id
    · subst h1
      simp [sonsPut, sonsGet, Ne.symm h]
    · by_cases h2 : k1 = k
      · subst h2
        simp [sonsPut, sonsGet, h1]
      · simp [sonsPut, sonsGet, h1, h2, ih]

theorem sonsPut_self (l : List (Int × bitmapNode)) (id : Int) (n : bitmapNode)
    (h : sonsGet l id = some n) : sonsPut l id n = l := by
  induction l with
  | nil => simp [sonsGet] at h
  | cons p rest ih =>
    obtain ⟨k, m⟩ := p
    by_cases h1 : k = id
    · simp [sonsGet, h1] at h
      simp [sonsPut, h1, h]
    · simp [sonsGet, h1] at h
      simp [sonsPut, h1, ih h]

theorem sonsGet_mem (l : List (Int × bitmapNode)) (id : Int) (n : bitmapNode)
    (h : sonsGet l id = some n) : (id, n) ∈ l := by
  induction l with
  | nil => simp [sonsGet] at h
  | cons p rest ih =>
    obtain ⟨k, m⟩ := p
    by_cases h1 : k = id
    · simp [sonsGet, h1] at h
      simp [h1, h]
    · simp [sonsGet, h1] at h
      exact List.mem_cons_of_mem _ (ih h)

theorem sonsGet_none_iff (l : List (Int × bitmapNode)) (id : Int) :
    sonsGet l id = none ↔ id ∉ l.map Prod.fst := by
  induction l with
  | nil => simp [sonsGet]
  | cons p rest ih =>
    obtain ⟨k, m⟩ := p
    by_cases h1 : k = id
    · simp [sonsGet, h1]
    · simp only [sonsGet, h1, if_false, ih, List.map_cons, List.mem_cons]
      constructor
      · intro h e
        rcases e with e | e
        · exact h1 e.symm
        · exact h e
      · intro h e
        exact h (Or.inr e)

theorem mem_sonsGet (l : List (Int × bitmapNode)) (id : Int) (n : bitmapNode)
    (nd : (l.map Prod.fst).Nodup) (h : (id, n) ∈ l) : sonsGet l id = some n := by
  induction l with
  | nil => simp at h
  | cons p rest ih =>
    obtain ⟨k, m⟩ := p
    simp only [List.map_cons, List.nodup_cons] at nd
    rcases List.mem_cons.1 h with e | e
    · cases e
      simp [sonsGet]
    · have hk : k ≠ id := by
        intro e1
        apply nd.1
        rw [e1]
        exact List.mem_map.2 ⟨(id, n), e, rfl⟩
      simp [sonsGet, hk, ih nd.2 e]

theorem keys_sonsPut_of_mem (l : List (Int × bitmapNode)) (id : Int) (n m : bitmapNode)
    (h : sonsGet l id = some m) : (sonsPut l id n).map Prod.fst = l.map Prod.fst := by
  induction l with
  | nil => simp [sonsGet] at h
  | cons p rest ih =>
    obtain ⟨k, m1⟩ := p
    by_cases h1 : k = id
    · simp [sonsPut, h1]
    · simp [sonsGet, h1] at h
      simp [sonsPut, h1, ih h]

theorem keys_sonsPut_of_not_mem (l : List (Int × bitmapNode)) (id : Int) (n : bitmapNode)
    (h : sonsGet l id = none) : (sonsPut l id n).map Prod.fst = l.map Prod.fst ++ [id] := by
  induction l with
  | nil => simp [sonsPut]
  | cons p rest ih =>
    obtain ⟨k, m1⟩ := p
    by_cases h1 : k = id
    · simp [sonsGet, h1] at h
    · simp [sonsGet, h1] at h
      simp [sonsPut, h1, ih h]

theorem mem_sonsPut (l : List (Int × bitmapNode)) (id : Int) (n : bitmapNode)
    (nd : (l.map Prod.fst).Nodup)
    (p : Int × bitmapNode) (h : p ∈ sonsPut l id n) : p = (id, n) ∨ (p ∈ l ∧ p.1 ≠ id) := by
  induction l with
  | nil =>
    simp [sonsPut] at h
    exact Or.inl h
  | cons q rest ih =>
    obtain ⟨k, m1⟩ := q
    simp only [List.map_cons, List.nodup_cons] at nd
    by_cases h1 : k = id
    · simp only [sonsPut, h1, if_true, List.mem_cons] at h
      rcases h with e | e
      · exact Or.inl e
      · refine Or.inr ⟨List.mem_cons_of_mem _ e, ?_⟩
        intro e1
        apply nd.1
        rw [h1, ← e1]
        exact List.mem_map.2 ⟨p, e, rfl⟩
    · simp only [sonsPut, h1, if_false, List.mem_cons] at h
      rcases h with e | e
      · refine Or.inr ⟨by simp [e], ?_⟩
        rw [e]; exact h1
      · rcases ih nd.2 e with e1 | e1
        · exact Or.inl e1
        · exact Or.inr ⟨List.mem_cons_of_mem _ e1.1, e1.2⟩

/-! ## Insertion into the trie -/

theorem sonsPut_sonsPut (l : List (Int × bitmapNode)) (id : Int) (a b : bitmapNode) :
    sonsPut (sonsPut l id a) id b = sonsPut l id b := by
  induction l with
  | nil => simp [sonsPut]
  | cons p rest ih =>
    obtain ⟨k, m⟩ := p
    by_cases h : k = id
    · simp [sonsPut, h]
    · simp [sonsPut, h, ih]

@[simp] theorem sons_mk (i : Int) (s : List (Int × bitmapNode)) :
    (bitmapNode.mk i s).sons = s := rfl

@[simp] theorem id_mk (i : Int) (s : List (Int × bitmapNode)) :
    (bitmapNode.mk i s).id = i := rfl

theorem bitmapNode.eta (n : bitmapNode) : bitmapNode.mk n.id n.sons = n := by
  cases n; rfl

/-- The child an insertion continues with: the existing one, or a fresh one. -/
theorem updateNodes_cons (root : bitmapNode) (id : Int) (rest : List Int) :
    updateNodes root (id :: rest) =
      bitmapNode.mk root.id (sonsPut root.sons id
        (updateNodes ((sonsGet root.sons id).getD (newBitmapNode id)) rest)) := by
  cases h : sonsGet root.sons id with
  | some n => simp [updateNodes, h]
  | none =>
    simp [updateNodes, h, bitmapNode.addSon, sonsGet_sonsPut_same, sonsPut_sonsPut]

theorem updateNodes_id (root : bitmapNode) (ids : List Int) :
    (updateNodes root ids).id = root.id := by
  cases ids with
  | nil => simp [updateNodes]
  | cons id rest => rw [updateNodes_cons]; rfl

theorem updateNodes_of_path (root : bitmapNode) (ids : List Int)
    (h : (nodeAt root ids).isSome = true) : updateNodes root ids = root := by
  induction ids generalizing root with
  | nil => simp [updateNodes]
  | cons id rest ih =>
    rw [updateNodes_cons]
    cases hg : sonsGet root.sons id with
    | none => simp [nodeAt, hg] at h
    | some n =>
      simp only [nodeAt, hg] at h
      simp only [Option.getD_some, ih n h, sonsPut_self _ _ _ hg]
      exact bitmapNode.eta root

theorem nodeAt_updateNodes_self (root : bitmapNode) (ids : List Int) :
    (nodeAt (updateNodes root ids) ids).isSome = true := by
  induction ids generalizing root with
  | nil => simp [updateNodes, nodeAt]
  | cons id rest ih =>
    rw [updateNodes_cons]
    simp only [nodeAt, sons_mk, sonsGet_sonsPut_same]
    exact ih _

theorem nodeAt_updateNodes_iff (root : bitmapNode) (ids q : List Int) :
    (nodeAt (updateNodes root ids) q).isSome = true ↔
      ((nodeAt root q).isSome = true ∨ q <+: ids) := by
  induction ids generalizing root q with
  | nil =>
    simp only [updateNodes, List.prefix_nil]
    constructor
    · exact Or.inl
    · rintro (h | h)
      · exact h
      · subst h; simp [nodeAt]
  | cons id rest ih =>
    rw [updateNodes_cons]
    cases q with
    | nil => simp [nodeAt]
    | cons k q1 =>
      by_cases hk : k = id
      · subst hk
        simp only [nodeAt, sons_mk, sonsGet_sonsPut_same, ih, List.cons_prefix_cons,
          true_and]
        cases hg : sonsGet root.sons k with
        | none =>
          simp only [Option.getD_none, Option.isSome_none, Bool.false_eq_true, false_or]
          constructor
          · rintro (h | h)
            · cases q1 with
              | nil => exact List.nil_prefix
              | cons a b => simp [nodeAt, newBitmapNode, sonsGet] at h
            · exact h
          · exact Or.inr
        | some n => simp
      · simp only [nodeAt, sons_mk, sonsGet_sonsPut_other _ _ _ _ hk,
          List.cons_prefix_cons, hk, false_and, or_false]

theorem TrieOK_nil (d : bimap) (n : Nat) (id : Int) : TrieOK d n (newBitmapNode id) := by
  cases n with
  | zero => simp [TrieOK, newBitmapNode]
  | succ n => simp [TrieOK, newBitmapNode]

theorem TrieOK_updateNodes (d : bimap) (n : Nat) (root : bitmapNode) (ids : List Int)
    (h : TrieOK d n root) (hl : ids.length = n)
    (hd : ∀ id ∈ ids, (d.extract id).isSome = true) :
    TrieOK d n (updateNodes root ids) := by
  induction ids generalizing root n with
  | nil => simpa [updateNodes] using h
  | cons id rest ih =>
    cases n with
    | zero => simp at hl
    | succ n =>
      rw [updateNodes_cons]
      simp only [TrieOK, sons_mk] at h ⊢
      have hrest : ∀ i ∈ rest, (d.extract i).isSome = true :=
        fun i hi => hd i (List.mem_cons_of_mem _ hi)
      have hlen : rest.length = n := by simpa using hl
      cases hg : sonsGet root.sons id with
      | none =>
        simp only [Option.getD_none]
        constructor
        · rw [keys_sonsPut_of_not_mem _ _ _ hg]
          rw [List.nodup_append]
          refine ⟨h.1, by simp, ?_⟩
          intro a ha hb
          simp only [List.mem_singleton] at hb
          subst hb
          exact (sonsGet_none_iff _ _).1 hg ha
        · intro p hp
          rcases mem_sonsPut _ _ _ h.1 p hp with e | e
          · subst e
            refine ⟨?_, hd id (List.mem_cons_self _ _), ih n _ (TrieOK_nil d n id) hlen hrest⟩
            rw [updateNodes_id]; rfl
          · exact h.2 p e.1
      | some m =>
        simp only [Option.getD_some]
        have hm := h.2 _ (sonsGet_mem _ _ _ hg)
        constructor
        · rw [keys_sonsPut_of_mem _ _ _ _ hg]; exact h.1
        · intro p hp
          rcases mem_sonsPut _ _ _ h.1 p hp with e | e
          · subst e
            refine ⟨?_, hm.2.1, ih n _ hm.2.2 hlen hrest⟩
            rw [updateNodes_id]; exact hm.1
          · exact h.2 p e.1

/-! ## Registration of terms -/

theorem bimap.Le.refl (d : bimap) : d.Le d := ⟨fun _ _ h => h, fun _ _ h => h⟩

theorem bimap.Le.trans {a b c : bimap} (h1 : a.Le b) (h2 : b.Le c) : a.Le c :=
  ⟨fun k v h => h2.1 k v (h1.1 k v h), fun v k h => h2.2 v k (h1.2 v k h)⟩

theorem locate_false_iff (b : bimap) (v : Node) (k : Int) :
    b.locate v = (k, false) → b.valueToKey v = none := by
  unfold bimap.locate
  cases b.valueToKey v with
  | none => simp
  | some k1 => simp

theorem push_fresh (b : bimap) (key : Int) (value : Node)
    (hk : b.keyToValue key = none) (hv : b.valueToKey value = none) :
    b.push key value = ⟨mapSet b.keyToValue key value, mapSet b.valueToKey value key⟩ := by
  simp [bimap.push, hk, hv]

/-- What `registerNode` does on a store with a well-formed dictionary. -/
theorem registerNode_spec (g : HDTGraph) (h : g.DictOK) (node : Node) :
    (g.registerNode node).1.DictOK ∧
      (g.registerNode node).1.root = g.root ∧
      (g.registerNode node).1.dictionnary.locate node = ((g.registerNode node).2, true) ∧
      g.dictionnary.Le (g.registerNode node).1.dictionnary := by
  unfold HDTGraph.registerNode
  cases hl : g.dictionnary.locate node with
  | mk key found =>
    cases found with
    | true => exact ⟨h, rfl, hl, bimap.Le.refl _⟩
    | false =>
      have hv : g.dictionnary.valueToKey node = none := locate_false_iff _ _ _ hl
      have hk : g.dictionnary.keyToValue g.nextID = none := by
        cases e : g.dictionnary.keyToValue g.nextID with
        | none => rfl
        | some v =>
          have := (h.2.2 g.nextID (by simp [e])).2
          exact absurd this (lt_irrefl _)
      have hb := push_bij _ h.1 g.nextID node
      simp only [push_fresh _ _ _ hk hv] at hb ⊢
      refine ⟨⟨hb, ?_, ?_⟩, trivial, ?_, ?_, ?_⟩
      · show 0 ≤ g.nextID + 1
        linarith [h.2.1]
      · intro k hs
        show 0 ≤ k ∧ k < g.nextID + 1
        simp only [mapSet] at hs
        by_cases e : k = g.nextID
        · subst e
          exact ⟨h.2.1, by linarith⟩
        · simp only [if_neg e] at hs
          have := h.2.2 k hs
          exact ⟨this.1, by linarith [this.2]⟩
      · simp [bimap.locate, mapSet]
      · intro k v e
        simp only [mapSet]
        by_cases e1 : k = g.nextID
        · rw [e1, hk] at e; exact absurd e (by simp)
        · simp [e1, e]
      · intro v k e
        simp only [mapSet]
        by_cases e1 : v = node
        · rw [e1, hv] at e; exact absurd e (by simp)
        · simp [e1, e]

/-! ## Well-formedness of reachable stores -/

theorem TrieOK_mono (d d1 : bimap) (h : d.Le d1) (n : Nat) (node : bitmapNode)
    (ht : TrieOK d n node) : TrieOK d1 n node := by
  induction n generalizing node with
  | zero => simpa [TrieOK] using ht
  | succ n ih =>
    simp only [TrieOK] at ht ⊢
    refine ⟨ht.1, fun p hp => ?_⟩
    obtain ⟨h1, h2, h3⟩ := ht.2 p hp
    refine ⟨h1, ?_, ih _ h3⟩
    simp only [bimap.extract] at h2 ⊢
    cases e : d.keyToValue p.1 with
    | none => simp [e] at h2
    | some v => simp [h.1 _ _ e]

theorem extract_of_locate (d : bimap) (hb : d.Bij) (v : Node) (k : Int)
    (h : d.locate v = (k, true)) : d.extract k = some v :=
  (hb k v).2 ((locate_eq_iff d v k).1 h)

theorem locate_mono (d d1 : bimap) (h : d.Le d1) (v : Node) (k : Int)
    (hl : d.locate v = (k, true)) : d1.locate v = (k, true) :=
  (locate_eq_iff d1 v k).2 (h.2 v k ((locate_eq_iff d v k).1 hl))

/-- What `Add` does on a well-formed store: the three terms are located at the
identifiers of the inserted path, earlier entries of the dictionary stay, and
the store stays well formed. -/
theorem Add_spec (g : HDTGraph) (h : g.WF) (t : Triple) :
    ∃ i j k, (g.Add t).dictionnary.locate t.Subject = (i, true) ∧
      (g.Add t).dictionnary.locate t.Predicate = (j, true) ∧
      (g.Add t).dictionnary.locate t.Object = (k, true) ∧
      (g.Add t).root = updateNodes g.root [i, j, k] ∧
      g.dictionnary.Le (g.Add t).dictionnary ∧ (g.Add t).WF := by
  obtain ⟨a1, b1, c1, e1⟩ := registerNode_spec g h.dict t.Subject
  obtain ⟨a2, b2, c2, e2⟩ := registerNode_spec (g.registerNode t.Subject).1 a1 t.Predicate
  obtain ⟨a3, b3, c3, e3⟩ :=
    registerNode_spec ((g.registerNode t.Subject).1.registerNode t.Predicate).1 a2 t.Object
  have l1 := locate_mono _ _ (e2.trans e3) _ _ c1
  have l2 := locate_mono _ _ e3 _ _ c2
  refine ⟨_, _, _, l1, l2, c3, ?_, e1.trans (e2.trans e3), ⟨a3, ?_⟩⟩
  · show updateNodes _ _ = _
    rw [b3, b2, b1]
  · show TrieOK _ 3 (updateNodes _ _)
    rw [b3, b2, b1]
    apply TrieOK_updateNodes
    · exact TrieOK_mono _ _ (e1.trans (e2.trans e3)) _ _ h.trie
    · rfl
    · intro id hid
      simp only [List.mem_cons, List.mem_singleton, List.not_mem_nil, or_false] at hid
      rcases hid with e | e | e
      · rw [e]; exact Option.isSome_iff_exists.2 ⟨_, extract_of_locate _ a3.1 _ _ l1⟩
      · rw [e]; exact Option.isSome_iff_exists.2 ⟨_, extract_of_locate _ a3.1 _ _ l2⟩
      · rw [e]; exact Option.isSome_iff_exists.2 ⟨_, extract_of_locate _ a3.1 _ _ c3⟩

theorem TrieOK_removeSons (d : bimap) (n : Nat) (node : bitmapNode) :
    TrieOK d n node.removeSons := by
  cases n with
  | zero => simp [TrieOK, bitmapNode.removeSons]
  | succ n => simp [TrieOK, bitmapNode.removeSons]

theorem removeNodes_id (g : HDTGraph) (root root1 : bitmapNode) (datas : List Node)
    (hr : removeNodes g root datas = Except.ok root1) : root1.id = root.id := by
  cases datas with
  | nil => simp [removeNodes] at hr
  | cons node rest =>
    unfold removeNodes at hr
    by_cases hb : node.isBnode = true
    · simp only [hb, if_true] at hr
      cases hr
      rfl
    · simp only [hb] at hr
      cases hl : g.dictionnary.locate node with
      | mk id found =>
        cases found with
        | false =>
          simp only [hl] at hr
          cases hr; rfl
        | true =>
          simp only [hl] at hr
          cases hs : sonsGet root.sons id with
          | none =>
            simp only [hs] at hr
            cases hr; rfl
          | some son =>
            simp only [hs] at hr
            cases hq : removeNodes g son rest with
            | error e => simp [hq] at hr
            | ok son1 =>
              simp only [hq] at hr
              cases hr
              rfl

theorem TrieOK_removeNodes (g : HDTGraph) (d : bimap) (n : Nat) (root root1 : bitmapNode)
    (datas : List Node) (h : TrieOK d n root)
    (hr : removeNodes g root datas = Except.ok root1) : TrieOK d n root1 := by
  induction datas generalizing root root1 n with
  | nil => simp [removeNodes] at hr
  | cons node rest ih =>
    unfold removeNodes at hr
    by_cases hb : node.isBnode = true
    · simp only [hb, if_true] at hr
      cases hr
      exact TrieOK_removeSons d n root
    · simp only [hb] at hr
      cases hl : g.dictionnary.locate node with
      | mk id found =>
        cases found with
        | false =>
          simp only [hl] at hr
          cases hr; exact h
        | true =>
          simp only [hl] at hr
          cases hs : sonsGet root.sons id with
          | none =>
            simp only [hs] at hr
            cases hr; exact h
          | some son =>
            simp only [hs] at hr
            cases hq : removeNodes g son rest with
            | error e => simp [hq] at hr
            | ok son1 =>
              simp only [hq] at hr
              cases hr
              cases n with
              | zero =>
                simp only [TrieOK] at h
                simp [h, sonsGet] at hs
              | succ n =>
                simp only [TrieOK, sons_mk] at h ⊢
                have hm := h.2 _ (sonsGet_mem _ _ _ hs)
                constructor
                · rw [keys_sonsPut_of_mem _ _ _ _ hs]; exact h.1
                · intro p hp
                  rcases mem_sonsPut _ _ _ h.1 p hp with e | e
                  · subst e
                    refine ⟨?_, hm.2.1, ih n _ _ hm.2.2 hq⟩
                    rw [removeNodes_id g _ _ _ hq]; exact hm.1
                  · exact h.2 p e.1

theorem Delete_spec (g g1 : HDTGraph) (h : g.WF) (s o p : Node)
    (hd : g.Delete s o p = Except.ok g1) :
    g1.dictionnary = g.dictionnary ∧ g1.nextID = g.nextID ∧ g1.WF := by
  unfold HDTGraph.Delete at hd
  cases hr : removeNodes g g.root [s, p, o] with
  | error e => simp [hr] at hd
  | ok root1 =>
    simp only [hr] at hd
    cases hd
    exact ⟨rfl, rfl, ⟨h.dict, TrieOK_removeNodes g _ 3 _ _ _ h.trie hr⟩⟩

theorem NewHDTGraph_WF : NewHDTGraph.WF := by
  refine ⟨⟨newBimap_bij, le_refl _, ?_⟩, TrieOK_nil _ 3 _⟩
  intro k hk
  simp [NewHDTGraph, newBimap] at hk

theorem Reachable.wf {g : HDTGraph} (h : Reachable g) : g.WF := by
  induction h with
  | empty => exact NewHDTGraph_WF
  | add g t _ ih =>
    obtain ⟨_, _, _, _, _, _, _, _, hw⟩ := Add_spec g ih t
    exact hw
  | delete g g1 s o p _ hd ih => exact (Delete_spec g g1 ih s o p hd).2.2

/-- Adding a triple whose path is already there changes nothing. -/
theorem Add_again (g : HDTGraph) (t : Triple) (i j k : Int)
    (h1 : g.dictionnary.locate t.Subject = (i, true))
    (h2 : g.dictionnary.locate t.Predicate = (j, true))
    (h3 : g.dictionnary.locate t.Object = (k, true))
    (hp : (nodeAt g.root [i, j, k]).isSome = true) : g.Add t = g := by
  have r1 : g.registerNode t.Subject = (g, i) := by simp [HDTGraph.registerNode, h1]
  have r2 : g.registerNode t.Predicate = (g, j) := by simp [HDTGraph.registerNode, h2]
  have r3 : g.registerNode t.Object = (g, k) := by simp [HDTGraph.registerNode, h3]
  simp only [HDTGraph.Add, r1, r2, r3, updateNodes_of_path _ _ hp]

/-! ## The triples held by a store built by `Add` -/

theorem Holds_Add (g : HDTGraph) (ts : List Triple) (h : g.Holds ts) (t : Triple) :
    (g.Add t).Holds (ts ++ [t]) := by
  obtain ⟨hw, hs, hp⟩ := h
  obtain ⟨i, j, k, l1, l2, l3, hr, hle, hw1⟩ := Add_spec g hw t
  refine ⟨hw1, ?_, ?_⟩
  · intro u hu
    rcases List.mem_append.1 hu with hu | hu
    · obtain ⟨a, b, c, m1, m2, m3, hn⟩ := hs u hu
      refine ⟨a, b, c, locate_mono _ _ hle _ _ m1, locate_mono _ _ hle _ _ m2,
        locate_mono _ _ hle _ _ m3, ?_⟩
      rw [hr]
      exact (nodeAt_updateNodes_iff _ _ _).2 (Or.inl hn)
    · simp only [List.mem_singleton] at hu
      subst hu
      refine ⟨i, j, k, l1, l2, l3, ?_⟩
      rw [hr]
      exact nodeAt_updateNodes_self _ _
  · intro a b c hn
    rw [hr] at hn
    rcases (nodeAt_updateNodes_iff _ _ _).1 hn with hn | hn
    · obtain ⟨u, hu, m1, m2, m3⟩ := hp a b c hn
      exact ⟨u, List.mem_append_left _ hu, locate_mono _ _ hle _ _ m1,
        locate_mono _ _ hle _ _ m2, locate_mono _ _ hle _ _ m3⟩
    · have : [a, b, c] = [i, j, k] := List.IsPrefix.eq_of_length hn rfl
      simp only [List.cons.injEq, and_true] at this
      obtain ⟨ea, eb, ec⟩ := this
      subst ea; subst eb; subst ec
      exact ⟨t, by simp, l1, l2, l3⟩

theorem Holds_foldl (ts acc : List Triple) (g : HDTGraph) (h : g.Holds acc) :
    (ts.foldl HDTGraph.Add g).Holds (acc ++ ts) := by
  induction ts generalizing g acc with
  | nil => simpa using h
  | cons t rest ih =>
    have := ih (acc ++ [t]) (g.Add t) (Holds_Add g acc h t)
    simpa using this

theorem NewHDTGraph_Holds : NewHDTGraph.Holds [] := by
  refine ⟨NewHDTGraph_WF, by simp, ?_⟩
  intro i j k h
  simp [NewHDTGraph, newBitmapNode, nodeAt, sonsGet] at h

theorem addAll_Holds (ts : List Triple) : (addAll ts).Holds ts := by
  have := Holds_foldl ts [] NewHDTGraph NewHDTGraph_Holds
  simpa [addAll] using this

/-! ## Traversal for a pattern of bound terms -/

theorem query_leaf (g : HDTGraph) (root : Option bitmapNode) (datas : List Node)
    (i j k : Int) (s p o : Node) (h1 : g.dictionnary.extract i = some s)
    (h2 : g.dictionnary.extract j = some p) (h3 : g.dictionnary.extract k = some o) :
    queryNodes g root datas [i, j, k] = Except.ok ⟨[⟨s, p, o⟩], 1, []⟩ := by
  cases datas <;> simp [queryNodes, bitmapTripleToTriple, h1, h2, h3, NewTriple]

theorem query_bound_out (g : HDTGraph) (hb : g.dictionnary.Bij) (root : bitmapNode)
    (s p o : Node) (i j k : Int)
    (bs : s.isBnode = false) (bp : p.isBnode = false) (bo : o.isBnode = false)
    (l1 : g.dictionnary.locate s = (i, true)) (l2 : g.dictionnary.locate p = (j, true))
    (l3 : g.dictionnary.locate o = (k, true))
    (hn : (nodeAt root [i, j, k]).isSome = true) :
    ∃ t, queryNodes g (some root) [s, p, o] [] = Except.ok t ∧ t.out = [⟨s, p, o⟩] := by
  have e1 := extract_of_locate _ hb _ _ l1
  have e2 := extract_of_locate _ hb _ _ l2
  have e3 := extract_of_locate _ hb _ _ l3
  simp only [nodeAt] at hn
  cases g1 : sonsGet root.sons i with
  | none => simp [g1] at hn
  | some n1 =>
    simp only [g1] at hn
    cases g2 : sonsGet n1.sons j with
    | none => simp [g2] at hn
    | some n2 =>
      simp only [g2] at hn
      cases g3 : sonsGet n2.sons k with
      | none => simp [g3] at hn
      | some n3 =>
        simp [queryNodes, bs, bp, bo, l1, l2, l3, g1, g2, g3, bitmapTripleToTriple, e1, e2, e3,
          NewTriple]

/-! ## Deletion -/

/-- C3 (the code at the failing input): in the scenario of the specification
`Delete(alice, knows, bob)` returns and leaves the store as it was, so `Filter`
still emits `alice knows bob`; and the removal walk given the three terms in
the order subject, predicate, object panics with an index out of range. -/
theorem C3_delete_leaves_triple :
    (∃ g1, friends.Delete alice knows bob = Except.ok g1 ∧
      g1.emitted alice knows bob = some [⟨alice, knows, bob⟩] ∧
      g1.emitted alice knows anon = some [⟨alice, knows, bob⟩, ⟨alice, knows, carol⟩]) ∧
    removeNodes friends friends.root [alice, knows, bob] =
      Except.error Fault.indexOutOfRange := by
  refine ⟨⟨_, rfl, by decide, by decide⟩, rfl⟩

/-- C4 (the code at the failing input): in the store holding `alice knows bob`
the pattern `alice knows alice`, whose terms are all in the dictionary, is not
stored, yet `Filter` emits it; and for the pattern `knows knows knows` the
traversal dereferences a nil node. -/
theorem C4_filter_phantom_triple :
    (⟨alice, knows, alice⟩ : Triple) ∉ [(⟨alice, knows, bob⟩ : Triple)] ∧
      (addAll [⟨alice, knows, bob⟩]).emitted alice knows alice = some [⟨alice, knows, alice⟩] ∧
      ((addAll [⟨alice, knows, bob⟩]).Filter knows knows knows).run =
        Except.error Fault.nilDereference := by
  refine ⟨by decide, by decide, rfl⟩

/-- C7 (the code at the failing input): `Delete(alice, knows, anon)` on the
store holding `alice knows bob` and `alice likes carol` removes `alice likes
carol` as well (nothing is left under `alice`), whereas the removal walk over
`[alice, knows, anon]` keeps it: the walk of `Delete(a, b, c)` is the one over
`[a, c, b]`. -/
theorem C7_delete_swaps_arguments :
    (∃ g1, (addAll [⟨alice, knows, bob⟩, ⟨alice, likes, carol⟩]).Delete alice knows anon =
        Except.ok g1 ∧ g1.emitted alice anon anon = some []) ∧
    (∃ r, removeNodes (addAll [⟨alice, knows, bob⟩, ⟨alice, likes, carol⟩])
        (addAll [⟨alice, knows, bob⟩, ⟨alice, likes, carol⟩]).root [alice, knows, anon] =
        Except.ok r ∧
      HDTGraph.emitted { addAll [⟨alice, knows, bob⟩, ⟨alice, likes, carol⟩] with root := r }
        alice anon anon = some [⟨alice, likes, carol⟩]) ∧
    ∀ (g : HDTGraph) (a b c : Node),
      g.Delete a b c = (removeNodes g g.root [a, c, b]).map (fun r => { g with root := r }) := by
  refine ⟨⟨_, rfl, by decide⟩, ⟨_, rfl, by decide⟩, ?_⟩
  intro g a b c
  unfold HDTGraph.Delete
  cases removeNodes g g.root [a, c, b] <;> rfl

/-! ## Idempotence of `Add` -/

/-- C8: in every store reached by `Add` and `Delete` calls, adding a triple
twice leaves the same dictionary, `nextID` and trie as adding it once. -/
theorem C8_add_idempotent (g : HDTGraph) (h : Reachable g) (t : Triple) :
    (g.Add t).Add t = g.Add t := by
  obtain ⟨i, j, k, l1, l2, l3, hr, _, _⟩ := Add_spec g h.wf t
  apply Add_again (g.Add t) t i j k l1 l2 l3
  rw [hr]
  exact nodeAt_updateNodes_self _ _

/-- Witness of C8 on the store reached by one `Add`. -/
theorem C8_add_idempotent_witness :
    Reachable (NewHDTGraph.Add ⟨alice, knows, bob⟩) ∧
      ((NewHDTGraph.Add ⟨alice, knows, bob⟩).Add ⟨alice, knows, carol⟩).Add
          ⟨alice, knows, carol⟩ =
        (NewHDTGraph.Add ⟨alice, knows, bob⟩).Add ⟨alice, knows, carol⟩ :=
  ⟨Reachable.add _ _ Reachable.empty,
    C8_add_idempotent _ (Reachable.add _ _ Reachable.empty) ⟨alice, knows, carol⟩⟩

/-! ## Removal below a blank node -/

/-- C6: when the first terms of the list are bound and resolve to an existing
path from the root to a node `n`, and the next term is a blank node, the
removal walk returns, leaves `n` without children, leaves every node that is
neither above nor below `n` as it was, and leaves the identifier and the keys
of the children of every node above `n` as they were. -/
theorem C6_blank_removal_breadth (g : HDTGraph) (bound : List Node) (ids : List Int)
    (hbound : List.Forall₂
      (fun t i => t.isBnode = false ∧ g.dictionnary.locate t = (i, true)) bound ids)
    (b : Node) (hb : b.isBnode = true) (rest : List Node) (root n : bitmapNode)
    (hpath : nodeAt root ids = some n) :
    ∃ root1, removeNodes g root (bound ++ b :: rest) = Except.ok root1 ∧
      nodeAt root1 ids = some (bitmapNode.mk n.id []) ∧
      (∀ q, ¬ ids <+: q → ¬ q <+: ids → nodeAt root1 q = nodeAt root q) ∧
      ∀ q, ¬ ids <+: q →
        (nodeAt root1 q).map bitmapNode.id = (nodeAt root q).map bitmapNode.id ∧
        (nodeAt root1 q).map bitmapNode.keys = (nodeAt root q).map bitmapNode.keys := by
  induction hbound generalizing root with
  | nil =>
    simp only [nodeAt, Option.some.injEq] at hpath
    subst hpath
    refine ⟨root.removeSons, by simp [removeNodes, hb], rfl, ?_, ?_⟩
    · intro q h; exact absurd List.nil_prefix h
    · intro q h; exact absurd List.nil_prefix h
  | @cons t i bs is ht _ ih =>
    simp only [nodeAt] at hpath
    cases hs : sonsGet root.sons i with
    | none => simp [hs] at hpath
    | some son =>
      simp only [hs] at hpath
      obtain ⟨son1, h1, h2, h3, h4⟩ := ih son hpath
      refine ⟨bitmapNode.mk root.id (sonsPut root.sons i son1), ?_, ?_, ?_, ?_⟩
      · simp [removeNodes, ht.1, ht.2, hs, h1]
      · simp only [nodeAt, sons_mk, sonsGet_sonsPut_same]
        exact h2
      · intro q hq1 hq2
        cases q with
        | nil => exact absurd List.nil_prefix hq2
        | cons k q1 =>
          by_cases hk : k = i
          · subst hk
            simp only [List.cons_prefix_cons, true_and] at hq1 hq2
            simp only [nodeAt, sons_mk, sonsGet_sonsPut_same, hs]
            exact h3 q1 hq1 hq2
          · simp only [nodeAt, sons_mk, sonsGet_sonsPut_other _ _ _ _ hk]
      · intro q hq1
        cases q with
        | nil =>
          simp only [nodeAt, Option.map_some', id_mk, bitmapNode.keys, sons_mk,
            keys_sonsPut_of_mem _ _ _ _ hs, and_self]
        | cons k q1 =>
          by_cases hk : k = i
          · subst hk
            simp only [List.cons_prefix_cons, true_and] at hq1
            simp only [nodeAt, sons_mk, sonsGet_sonsPut_same, hs]
            exact h4 q1 hq1
          · simp only [nodeAt, sons_mk, sonsGet_sonsPut_other _ _ _ _ hk, and_self]

/-- Witness of C6 on the store of the scenario: the walk over `alice`, `knows`
and a blank node empties the node of `knows`. -/
theorem C6_blank_removal_breadth_witness :
    ∃ root1, removeNodes friends friends.root ([alice, knows] ++ anon :: []) = Except.ok root1 ∧
      nodeAt root1 [0, 1] =
        some (bitmapNode.mk
          (bitmapNode.mk 1 [(2, bitmapNode.mk 2 []), (3, bitmapNode.mk 3 [])]).id []) ∧
      (∀ q, ¬ [0, 1] <+: q → ¬ q <+: [0, 1] → nodeAt root1 q = nodeAt friends.root q) ∧
      ∀ q, ¬ [0, 1] <+: q →
        (nodeAt root1 q).map bitmapNode.id = (nodeAt friends.root q).map bitmapNode.id ∧
        (nodeAt root1 q).map bitmapNode.keys = (nodeAt friends.root q).map bitmapNode.keys :=
  C6_blank_removal_breadth friends [alice, knows] [0, 1]
    (List.Forall₂.cons ⟨rfl, rfl⟩ (List.Forall₂.cons ⟨rfl, rfl⟩ List.Forall₂.nil))
    anon rfl [] friends.root
    (bitmapNode.mk 1 [(2, bitmapNode.mk 2 []), (3, bitmapNode.mk 3 [])]) rfl

/-! ## Traversal for a pattern of blank nodes -/

theorem nodeCountSons_eq (sons : List (Int × bitmapNode)) :
    nodeCountSons sons = (sons.map (fun p => p.2.nodeCount)).sum := by
  induction sons with
  | nil => simp [nodeCountSons]
  | cons p rest ih =>
    obtain ⟨k, n⟩ := p
    simp [nodeCountSons, ih]

theorem nodeCount_eq (node : bitmapNode) :
    node.nodeCount = (node.sons.map (fun p => p.2.nodeCount)).sum + 1 := by
  cases node with
  | mk i sons => simp [bitmapNode.nodeCount, nodeCountSons_eq]

theorem rangeSons_spec (visit : bitmapNode → Except Fault Trace)
    (outF : bitmapNode → List (Option Triple)) (cnt : bitmapNode → Nat)
    (sons : List (Int × bitmapNode))
    (h : ∀ p ∈ sons, ∃ t, visit p.2 = Except.ok t ∧ t.out.map some = outF p.2 ∧
      t.done = cnt p.2 ∧ t.pruned = []) :
    ∃ u, rangeSons visit sons = Except.ok u ∧
      u.out.map some = sons.flatMap (fun p => outF p.2) ∧
      u.done = (sons.map (fun p => cnt p.2)).sum ∧ u.pruned = [] := by
  induction sons with
  | nil => exact ⟨Trace.empty, rfl, rfl, rfl, rfl⟩
  | cons p rest ih =>
    obtain ⟨k, n⟩ := p
    obtain ⟨t, h1, h2, h3, h4⟩ := h (k, n) (List.mem_cons_self _ _)
    obtain ⟨u, g1, g2, g3, g4⟩ := ih (fun p hp => h p (List.mem_cons_of_mem _ hp))
    refine ⟨t.append u, ?_, ?_, ?_, ?_⟩
    · simp only [rangeSons]
      simp only [] at h1
      rw [h1, g1]
    · simp only [] at h2
      simp [Trace.append, h2, g2]
    · simp only [] at h3
      simp [Trace.append, h3, g3]
    · simp [Trace.append, h4, g4]

theorem tripleOf_some (d : bimap) (ids : List Int) (hl : ids.length = 3)
    (h : ∀ id ∈ ids, (d.extract id).isSome = true) : ∃ t, tripleOf d ids = some t := by
  match ids, hl with
  | [a, b, c], _ =>
    have ha := h a (by simp)
    have hb := h b (by simp)
    have hc := h c (by simp)
    obtain ⟨x, hx⟩ := Option.isSome_iff_exists.1 ha
    obtain ⟨y, hy⟩ := Option.isSome_iff_exists.1 hb
    obtain ⟨z, hz⟩ := Option.isSome_iff_exists.1 hc
    exact ⟨⟨x, y, z⟩, by simp [tripleOf, bitmapTripleToTriple, hx, hy, hz, NewTriple]⟩

/-- The traversal of a well-shaped trie for a pattern of blank nodes: it
returns, sends the triples of all paths beneath the node, signals once per
node and prunes nothing. -/
theorem query_blank (g : HDTGraph) (n : Nat) :
    ∀ (node : bitmapNode) (datas : List Node) (pre : List Int),
      pre.length + n = 3 → datas.length = n → (∀ x ∈ datas, x.isBnode = true) →
      TrieOK g.dictionnary n node →
      (∀ id ∈ pre, (g.dictionnary.extract id).isSome = true) →
      ∃ t, queryNodes g (some node) datas pre = Except.ok t ∧
        t.out.map some = (pathsBelow n node).map (fun q => tripleOf g.dictionnary (pre ++ q)) ∧
        t.done = node.nodeCount ∧ t.pruned = [] := by
  induction n with
  | zero =>
    intro node datas pre hl _ _ ht hp
    have hl3 : pre.length = 3 := by simpa using hl
    obtain ⟨t, ht1⟩ := tripleOf_some _ pre hl3 hp
    refine ⟨⟨[t], 1, []⟩, ?_, ?_, ?_, rfl⟩
    · unfold tripleOf at ht1
      cases datas <;> simp only [queryNodes, hl3, ↓reduceIte, ht1]
    · simp [pathsBelow, ht1]
    · simp only [TrieOK] at ht
      rw [nodeCount_eq, ht]
      rfl
  | succ n ih =>
    intro node datas pre hl hd hb ht hp
    have hne : ¬ pre.length = 3 := by omega
    cases datas with
    | nil => simp at hd
    | cons x rest =>
      have hx : x.isBnode = true := hb x (List.mem_cons_self _ _)
      simp only [TrieOK] at ht
      obtain ⟨u, g1, g2, g3, g4⟩ := rangeSons_spec
        (fun son => queryNodes g (some son) rest (pre ++ [son.id]))
        (fun son => (pathsBelow n son).map
          (fun q => tripleOf g.dictionnary ((pre ++ [son.id]) ++ q)))
        bitmapNode.nodeCount node.sons
        (by
          intro p hpm
          obtain ⟨e1, e2, e3⟩ := ht.2 p hpm
          apply ih p.2 rest (pre ++ [p.2.id])
          · simp only [List.length_append, List.length_singleton]; omega
          · simpa using hd
          · exact fun y hy => hb y (List.mem_cons_of_mem _ hy)
          · exact e3
          · intro id hid
            rcases List.mem_append.1 hid with hid | hid
            · exact hp id hid
            · simp only [List.mem_singleton] at hid
              rw [hid, e1]; exact e2)
      refine ⟨⟨u.out, u.done + 1, u.pruned⟩, ?_, ?_, ?_, g4⟩
      · simp only [queryNodes, hne, if_false, hx, if_true, g1]
      · simp only [g2, pathsBelow, List.map_flatMap, List.map_map]
        congr 1
        funext p
        simp [Function.comp]
      · simp only [g3]
        rw [nodeCount_eq]

/-! ## Paths of a well-shaped trie -/

theorem mem_pathsBelow_iff (d : bimap) (n : Nat) (node : bitmapNode) (q : List Int)
    (h : TrieOK d n node) :
    q ∈ pathsBelow n node ↔ q.length = n ∧ (nodeAt node q).isSome = true := by
  induction n generalizing node q with
  | zero =>
    simp only [pathsBelow, List.mem_singleton, List.length_eq_zero]
    constructor
    · intro e; subst e; simp [nodeAt]
    · exact fun e => e.1
  | succ n ih =>
    simp only [TrieOK] at h
    simp only [pathsBelow, List.mem_flatMap, List.mem_map]
    constructor
    · rintro ⟨p, hp, q1, hq1, rfl⟩
      obtain ⟨e1, _, e3⟩ := h.2 p hp
      have hg : sonsGet node.sons p.2.id = some p.2 := by
        rw [e1]; exact mem_sonsGet _ _ _ h.1 hp
      have := (ih p.2 q1 e3).1 hq1
      exact ⟨by simp [this.1], by simp only [nodeAt, hg]; exact this.2⟩
    · rintro ⟨hl, hn⟩
      cases q with
      | nil => simp at hl
      | cons k q1 =>
        simp only [nodeAt] at hn
        cases hg : sonsGet node.sons k with
        | none => simp [hg] at hn
        | some m =>
          simp only [hg] at hn
          have hm := sonsGet_mem _ _ _ hg
          obtain ⟨e1, _, e3⟩ := h.2 _ hm
          refine ⟨(k, m), hm, q1, (ih m q1 e3).2 ⟨by simpa using hl, hn⟩, ?_⟩
          simp only [] at e1
          rw [e1]

theorem nodup_pathsBelow (d : bimap) (n : Nat) (node : bitmapNode) (h : TrieOK d n node) :
    (pathsBelow n node).Nodup := by
  induction n generalizing node with
  | zero => simp [pathsBelow]
  | succ n ih =>
    simp only [TrieOK] at h
    simp only [pathsBelow]
    rw [List.nodup_flatMap]
    constructor
    · intro p hp
      exact (ih p.2 (h.2 p hp).2.2).map (fun a b e => (List.cons.inj e).2)
    · have hk : List.Pairwise (fun a b : Int × bitmapNode => a.1 ≠ b.1) node.sons :=
        List.pairwise_map.1 h.1
      refine (List.Pairwise.and_mem.1 hk).imp ?_
      rintro a b ⟨ha, hb, hne⟩
      simp only [Function.onFun]
      rw [List.disjoint_left]
      intro q hq1 hq2
      obtain ⟨q1, _, rfl⟩ := List.mem_map.1 hq1
      obtain ⟨q2, _, e⟩ := List.mem_map.1 hq2
      have := (List.cons.inj e).1
      rw [(h.2 a ha).1, (h.2 b hb).1] at this
      exact hne this.symm

theorem tripleOf_eq_some (d : bimap) (a b c : Int) (t : Triple)
    (h : tripleOf d [a, b, c] = some t) :
    d.keyToValue a = some t.Subject ∧ d.keyToValue b = some t.Predicate ∧
      d.keyToValue c = some t.Object := by
  simp only [tripleOf, bitmapTripleToTriple, bimap.extract] at h
  cases x : d.keyToValue a with
  | none => simp [x] at h
  | some s =>
    cases y : d.keyToValue b with
    | none => simp [x, y] at h
    | some p =>
      cases z : d.keyToValue c with
      | none => simp [x, y, z] at h
      | some o =>
        simp [x, y, z, NewTriple] at h
        subst h
        exact ⟨rfl, rfl, rfl⟩

theorem tripleOf_inj (d : bimap) (hb : d.Bij) (a b c a1 b1 c1 : Int) (t : Triple)
    (h1 : tripleOf d [a, b, c] = some t) (h2 : tripleOf d [a1, b1, c1] = some t) :
    [a, b, c] = [a1, b1, c1] := by
  obtain ⟨x, y, z⟩ := tripleOf_eq_some d a b c t h1
  obtain ⟨x1, y1, z1⟩ := tripleOf_eq_some d a1 b1 c1 t h2
  have k1 := Option.some.inj (((hb a _).1 x).symm.trans ((hb a1 _).1 x1))
  have k2 := Option.some.inj (((hb b _).1 y).symm.trans ((hb b1 _).1 y1))
  have k3 := Option.some.inj (((hb c _).1 z).symm.trans ((hb c1 _).1 z1))
  rw [k1, k2, k3]

theorem tripleOf_located (d : bimap) (hb : d.Bij) (t : Triple) (i j k : Int)
    (l1 : d.locate t.Subject = (i, true)) (l2 : d.locate t.Predicate = (j, true))
    (l3 : d.locate t.Object = (k, true)) : tripleOf d [i, j, k] = some t := by
  simp [tripleOf, bitmapTripleToTriple, extract_of_locate d hb _ _ l1,
    extract_of_locate d hb _ _ l2, extract_of_locate d hb _ _ l3, NewTriple]

theorem length_three (q : List Int) (h : q.length = 3) : ∃ a b c, q = [a, b, c] := by
  match q, h with
  | [a, b, c], _ => exact ⟨a, b, c, rfl⟩

/-- The traversal of a store that holds `ts` for a pattern of three blank
nodes. -/
theorem query_all (g : HDTGraph) (ts : List Triple) (h : g.Holds ts) (b1 b2 b3 : Node)
    (h1 : b1.isBnode = true) (h2 : b2.isBnode = true) (h3 : b3.isBnode = true) :
    ∃ t, queryNodes g (some g.root) [b1, b2, b3] [] = Except.ok t ∧
      t.out.Nodup ∧ (∀ x, x ∈ t.out ↔ x ∈ ts) ∧
      t.done = g.root.nodeCount ∧ t.pruned = [] := by
  obtain ⟨hw, hst, hp⟩ := h
  obtain ⟨t, e1, e2, e3, e4⟩ := query_blank g 3 g.root [b1, b2, b3] [] rfl rfl
    (by
      intro x hx
      simp only [List.mem_cons, List.mem_singleton, List.not_mem_nil, or_false] at hx
      rcases hx with e | e | e <;> rw [e] <;> assumption)
    hw.trie (by simp)
  simp only [List.nil_append] at e2
  have hmem : ∀ x, x ∈ t.out ↔ ∃ q ∈ pathsBelow 3 g.root, tripleOf g.dictionnary q = some x := by
    intro x
    have : x ∈ t.out ↔ some x ∈ t.out.map some := by simp
    rw [this, e2, List.mem_map]
  refine ⟨t, e1, ?_, ?_, e3, e4⟩
  · have hn : (t.out.map some).Nodup := by
      rw [e2]
      apply List.Nodup.map_on _ (nodup_pathsBelow _ 3 _ hw.trie)
      intro q hq q1 hq1 e
      obtain ⟨a, b, c, rfl⟩ := length_three q ((mem_pathsBelow_iff _ 3 _ q hw.trie).1 hq).1
      obtain ⟨a1, b1, c1, rfl⟩ := length_three q1 ((mem_pathsBelow_iff _ 3 _ q1 hw.trie).1 hq1).1
      have hs : ∃ x, x ∈ t.out ∧ some x = tripleOf g.dictionnary [a, b, c] := by
        have : tripleOf g.dictionnary [a, b, c] ∈ t.out.map some := by
          rw [e2]; exact List.mem_map.2 ⟨_, hq, rfl⟩
        exact List.mem_map.1 this
      obtain ⟨x, _, hx⟩ := hs
      exact tripleOf_inj _ hw.dict.1 a b c a1 b1 c1 x hx.symm (e ▸ hx.symm)
    exact List.Nodup.of_map some hn
  · intro x
    rw [hmem]
    constructor
    · rintro ⟨q, hq, hx⟩
      obtain ⟨hl, hn⟩ := (mem_pathsBelow_iff _ 3 _ q hw.trie).1 hq
      obtain ⟨a, b, c, rfl⟩ := length_three q hl
      obtain ⟨u, hu, l1, l2, l3⟩ := hp a b c hn
      have := tripleOf_located _ hw.dict.1 u a b c l1 l2 l3
      rw [hx] at this
      cases this
      exact hu
    · intro hx
      obtain ⟨i, j, k, l1, l2, l3, hn⟩ := hst x hx
      exact ⟨[i, j, k], (mem_pathsBelow_iff _ 3 _ _ hw.trie).2 ⟨rfl, hn⟩,
        tripleOf_located _ hw.dict.1 x i j k l1 l2 l3⟩

/-! ## Tries of one path -/

/-- The trie after inserting one path into the empty trie. -/
theorem single_path (i j k : Int) :
    updateNodes (newBitmapNode (-1)) [i, j, k] =
      bitmapNode.mk (-1) [(i, bitmapNode.mk i [(j, bitmapNode.mk j [(k, bitmapNode.mk k [])])])] := by
  simp [updateNodes, newBitmapNode, bitmapNode.addSon, sonsGet, sonsPut]

/-! ## Binding names of a union -/

/-- C10 (the code at the failing input): for the inner names `["b"]` and the
outer names `["a"]` the union returns `["b"]`, without `"a"`; for the inner
names `["a", "c"]` and the outer names `["b", "c", "d"]` it returns
`["a", "c", "d"]`, without `"b"`.  A name of the outer child is added only when
the binary search places it after every name gathered so far. -/
theorem C10_union_drops_name :
    unionNode.bindingNames ⟨⟨["b"]⟩, ⟨["a"]⟩⟩ = ["b"] ∧
      "a" ∉ unionNode.bindingNames ⟨⟨["b"]⟩, ⟨["a"]⟩⟩ ∧
      unionNode.bindingNames ⟨⟨["a", "c"]⟩, ⟨["b", "c", "d"]⟩⟩ = ["a", "c", "d"] ∧
      unionNode.bindingNames ⟨⟨["a"]⟩, ⟨["b"]⟩⟩ = ["a", "b"] := by
  decide

/-! ## The order of strings and sorting -/

theorem stringLess_asymm (x y : List Char) (h : stringLess x y = true) :
    stringLess y x = false := by
  induction x generalizing y with
  | nil => cases y <;> simp [stringLess] at h ⊢
  | cons a x ih =>
    cases y with
    | nil => simp [stringLess] at h
    | cons b y =>
      simp only [stringLess] at h ⊢
      by_cases h1 : a.toNat < b.toNat
      · have h2 : ¬ b.toNat < a.toNat := by omega
        simp [h1, h2]
      · by_cases h2 : b.toNat < a.toNat
        · simp [h1, h2] at h
        · simp only [h1, h2, if_false] at h ⊢
          exact ih y h

theorem stringLess_trans_neg (x y z : List Char) (h1 : stringLess y x = false)
    (h2 : stringLess z y = false) : stringLess z x = false := by
  induction x generalizing y z with
  | nil => cases z <;> simp [stringLess]
  | cons a x ih =>
    cases y with
    | nil => simp [stringLess] at h1
    | cons b y =>
      cases z with
      | nil => simp [stringLess] at h2
      | cons c z =>
        simp only [stringLess] at h1 h2 ⊢
        by_cases p1 : b.toNat < a.toNat
        · simp [p1] at h1
        · by_cases p2 : a.toNat < b.toNat
          · by_cases q1 : c.toNat < b.toNat
            · simp [q1] at h2
            · have q3 : ¬ c.toNat < a.toNat := by omega
              have q4 : a.toNat < c.toNat := by omega
              simp [q3, q4]
          · simp only [p1, p2, if_false] at h1
            by_cases q1 : c.toNat < b.toNat
            · simp [q1] at h2
            · by_cases q2 : b.toNat < c.toNat
              · have q3 : ¬ c.toNat < a.toNat := by omega
                have q4 : a.toNat < c.toNat := by omega
                simp [q3, q4]
              · simp only [q1, q2, if_false] at h2
                have q3 : ¬ c.toNat < a.toNat := by omega
                have q4 : ¬ a.toNat < c.toNat := by omega
                simp only [q3, q4, if_false]
                exact ih y z h1 h2

theorem stringLe_total (x y : String) : stringLe x y = true ∨ stringLe y x = true := by
  simp only [stringLe, Bool.not_eq_true']
  cases h : stringLess y.toList x.toList with
  | false => exact Or.inl rfl
  | true => exact Or.inr (stringLess_asymm _ _ h)

theorem stringLe_trans (x y z : String) (h1 : stringLe x y = true) (h2 : stringLe y z = true) :
    stringLe x z = true := by
  simp only [stringLe, Bool.not_eq_true'] at h1 h2 ⊢
  exact stringLess_trans_neg _ _ _ h1 h2

theorem sortStrings_sorted (l : List String) :
    List.Sorted (fun x y => stringLe x y = true) (sortStrings l) :=
  @List.sorted_insertionSort _ (fun x y => stringLe x y = true) _
    ⟨stringLe_total⟩ ⟨stringLe_trans⟩ l

theorem sortStrings_perm (l : List String) : (sortStrings l).Perm l :=
  List.perm_insertionSort _ l

/-! ## Binding names of a leaf -/

theorem bindingNames_eq (n : tripleNode) :
    n.bindingNames = sortStrings (variableNames n.pattern) := by
  simp only [tripleNode.bindingNames, variableNames, List.filterMap_cons, List.filterMap_nil]
  cases n.pattern.Subject.asVariable.2 <;> cases n.pattern.Predicate.asVariable.2 <;>
    cases n.pattern.Object.asVariable.2 <;> simp

/-- C11 (as stated, refuted): for the pattern `?x knows ?x` the binding names
are `["x", "x"]`: the variable used at two positions is listed twice. -/
theorem C11_counterexample_repeated_variable :
    tripleNode.bindingNames
        ⟨⟨Node.Variable "x", knows, Node.Variable "x"⟩, constGraph [], 0, 0⟩ = ["x", "x"] ∧
      ¬ (tripleNode.bindingNames
        ⟨⟨Node.Variable "x", knows, Node.Variable "x"⟩, constGraph [], 0, 0⟩).Nodup := by
  decide

/-- C11 (amended): the binding names of a leaf are sorted, their elements are
exactly the names of the variables at the subject, predicate and object
positions, and they have no duplicates when no variable is used at two
positions. -/
theorem C11_leaf_binding_names (n : tripleNode) :
    List.Sorted (fun x y => stringLe x y = true) n.bindingNames ∧
      (∀ x, x ∈ n.bindingNames ↔ x ∈ variableNames n.pattern) ∧
      ((variableNames n.pattern).Nodup → n.bindingNames.Nodup) := by
  rw [bindingNames_eq]
  refine ⟨sortStrings_sorted _, fun x => (sortStrings_perm _).mem_iff, fun h => ?_⟩
  exact (sortStrings_perm _).nodup_iff.2 h

/-- Witness of C11 (amended) on the pattern `?s knows ?o`. -/
theorem C11_leaf_binding_names_witness :
    (variableNames ⟨Node.Variable "s", knows, Node.Variable "o"⟩).Nodup ∧
      (tripleNode.bindingNames
        ⟨⟨Node.Variable "s", knows, Node.Variable "o"⟩, constGraph [], 0, 0⟩).Nodup :=
  ⟨by decide,
    (C11_leaf_binding_names
      ⟨⟨Node.Variable "s", knows, Node.Variable "o"⟩, constGraph [], 0, 0⟩).2.2 (by decide)⟩

/-! ## Bindings built by a leaf -/

theorem bindingsGet_put (l : List (String × Node)) (k name : String) (v : Node) :
    bindingsGet (bindingsPut l k v) name = if k = name then some v else bindingsGet l name := by
  induction l with
  | nil => simp [bindingsPut, bindingsGet]
  | cons p rest ih =>
    obtain ⟨k1, v1⟩ := p
    by_cases h1 : k1 = k
    · subst h1
      by_cases h : k1 = name
      · simp [bindingsPut, bindingsGet, h]
      · simp [bindingsPut, bindingsGet, h]
    · by_cases h2 : k1 = name
      · subst h2
        simp [bindingsPut, bindingsGet, h1, Ne.symm h1]
      · simp [bindingsPut, bindingsGet, h1, h2, ih]

/-- The group built for one triple, read through lookups: the object position
is assigned last, the subject position first. -/
theorem bindFree_get (n : tripleNode) (fs fp fo : Bool) (t : Triple) (name : String) :
    bindingsGet (bindFree n fs fp fo NewBindingsGroup t).Bindings name =
      if fo = true ∧ n.pattern.Object.asVariable.1 = name then some t.Object
      else if fp = true ∧ n.pattern.Predicate.asVariable.1 = name then some t.Predicate
      else if fs = true ∧ n.pattern.Subject.asVariable.1 = name then some t.Subject
      else none := by
  cases fs <;> cases fp <;> cases fo <;>
    simp [bindFree, NewBindingsGroup, bindingsGet_put, bindingsGet]

theorem mem_variableNames (pattern : Triple) (name : String) :
    name ∈ variableNames pattern ↔
      (pattern.Subject.asVariable.2 = true ∧ pattern.Subject.asVariable.1 = name) ∨
      (pattern.Predicate.asVariable.2 = true ∧ pattern.Predicate.asVariable.1 = name) ∨
      (pattern.Object.asVariable.2 = true ∧ pattern.Object.asVariable.1 = name) := by
  simp only [@eq_comm _ _ name]
  cases hs : pattern.Subject.asVariable.2 <;> cases hp : pattern.Predicate.asVariable.2 <;>
    cases ho : pattern.Object.asVariable.2 <;> simp [variableNames, hs, hp, ho]

/-- C12 (the code at the failing input): for the pattern `?x knows bob` and
the group binding `x` to `alice` and `z` to `carol`, iterated in this order,
the subject sent to `FilterSubset` is the variable `?x`, not `alice` (the round
for `z` assigns the pattern's term again), and `x` is no longer reported as
free; iterated in the other order the subject sent is `alice`; for the empty
group the three terms sent are nil. -/
theorem C12_executeWith_loses_binding :
    (tripleNode.complete ⟨⟨Node.Variable "x", knows, bob⟩, constGraph [], 0, 0⟩
        ⟨[("x", alice), ("z", carol)]⟩).querySubj = some (Node.Variable "x") ∧
      (tripleNode.complete ⟨⟨Node.Variable "x", knows, bob⟩, constGraph [], 0, 0⟩
        ⟨[("x", alice), ("z", carol)]⟩).freeSubject = false ∧
      (tripleNode.complete ⟨⟨Node.Variable "x", knows, bob⟩, constGraph [], 0, 0⟩
        ⟨[("z", carol), ("x", alice)]⟩).querySubj = some alice ∧
      (tripleNode.complete ⟨⟨Node.Variable "x", knows, bob⟩, constGraph [], 0, 0⟩
        ⟨[]⟩).querySubj = none ∧
      (tripleNode.complete ⟨⟨Node.Variable "x", knows, bob⟩, constGraph [], 0, 0⟩
        ⟨[]⟩).queryPred = none ∧
      (tripleNode.complete ⟨⟨Node.Variable "x", knows, bob⟩, constGraph [], 0, 0⟩
        ⟨[]⟩).queryObj = none := by
  decide

/-- C13 (as stated, refuted): for the pattern `?x knows ?x` and the returned
triple `alice knows bob` the group maps `x` to `bob`, the object, not to the
subject `alice`. -/
theorem C13_counterexample_repeated_variable :
    (tripleNode.execute
        ⟨⟨Node.Variable "x", knows, Node.Variable "x"⟩, constGraph [⟨alice, knows, bob⟩], 0, 0⟩).map
      (fun group => bindingsGet group.Bindings "x") = [some bob] := by
  decide

/-- C13 (amended): `execute` emits one group per triple returned by
`FilterSubset`, in the same order; the keys of each group are exactly the names
of the variable positions of the pattern; and for a returned triple whose terms
agree at the positions that carry the same variable, the group maps the name of
every variable position to the term of the triple at that position. -/
theorem C13_execute_bindings (n : tripleNode) :
    List.Forall₂
      (fun (t : Triple) (group : BindingsGroup) =>
        (∀ name, (bindingsGet group.Bindings name).isSome = true ↔
          name ∈ variableNames n.pattern) ∧
        (agreesWith n.pattern t →
          (n.pattern.Subject.asVariable.2 = true →
            bindingsGet group.Bindings n.pattern.Subject.asVariable.1 = some t.Subject) ∧
          (n.pattern.Predicate.asVariable.2 = true →
            bindingsGet group.Bindings n.pattern.Predicate.asVariable.1 = some t.Predicate) ∧
          (n.pattern.Object.asVariable.2 = true →
            bindingsGet group.Bindings n.pattern.Object.asVariable.1 = some t.Object)))
      (n.graph.FilterSubset (some n.pattern.Subject) (some n.pattern.Predicate)
        (some n.pattern.Object) n.limit n.offset)
      n.execute := by
  unfold tripleNode.execute
  rw [List.forall₂_map_right_iff]
  apply List.forall₂_same.2
  intro t _
  constructor
  · intro name
    rw [bindFree_get, mem_variableNames]
    by_cases h1 : n.pattern.Object.asVariable.2 = true ∧ n.pattern.Object.asVariable.1 = name
    · simp [h1]
    · by_cases h2 : n.pattern.Predicate.asVariable.2 = true ∧
          n.pattern.Predicate.asVariable.1 = name
      · simp [h1, h2]
      · by_cases h3 : n.pattern.Subject.asVariable.2 = true ∧
            n.pattern.Subject.asVariable.1 = name
        · simp [h1, h2, h3]
        · simp [h1, h2, h3]
  · intro ha
    obtain ⟨a1, a2, a3⟩ := ha
    refine ⟨fun hs => ?_, fun hp => ?_, fun ho => ?_⟩
    · rw [bindFree_get]
      by_cases h1 : n.pattern.Object.asVariable.2 = true ∧
          n.pattern.Object.asVariable.1 = n.pattern.Subject.asVariable.1
      · simp only [h1, and_self, if_true]
        rw [a2 hs h1.1 h1.2.symm]
      · by_cases h2 : n.pattern.Predicate.asVariable.2 = true ∧
            n.pattern.Predicate.asVariable.1 = n.pattern.Subject.asVariable.1
        · simp only [h1, h2, and_self, if_true, if_false]
          rw [a1 hs h2.1 h2.2.symm]
        · simp only [h1, h2, hs, and_self, if_true, if_false]
    · rw [bindFree_get]
      by_cases h1 : n.pattern.Object.asVariable.2 = true ∧
          n.pattern.Object.asVariable.1 = n.pattern.Predicate.asVariable.1
      · simp only [h1, and_self, if_true]
        rw [a3 hp h1.1 h1.2.symm]
      · simp only [h1, hp, and_self, if_true, if_false]
    · rw [bindFree_get]
      simp only [ho, and_self, if_true]

/-- Witness of C13 (amended) on the pattern `?s knows ?o` and the returned
triple `alice knows bob`. -/
theorem C13_execute_bindings_witness :
    List.Forall₂
      (fun (t : Triple) (group : BindingsGroup) =>
        (∀ name, (bindingsGet group.Bindings name).isSome = true ↔
          name ∈ variableNames leafExample.pattern) ∧
        (agreesWith leafExample.pattern t →
          (leafExample.pattern.Subject.asVariable.2 = true →
            bindingsGet group.Bindings leafExample.pattern.Subject.asVariable.1 =
              some t.Subject) ∧
          (leafExample.pattern.Predicate.asVariable.2 = true →
            bindingsGet group.Bindings leafExample.pattern.Predicate.asVariable.1 =
              some t.Predicate) ∧
          (leafExample.pattern.Object.asVariable.2 = true →
            bindingsGet group.Bindings leafExample.pattern.Object.asVariable.1 =
              some t.Object)))
      [⟨alice, knows, bob⟩] leafExample.execute :=
  C13_execute_bindings leafExample

/-! ## Equality of triples -/

/-- C14 (as stated, refuted): the subjects `alice` and `bob` compare unequal
without error and the comparison of the predicates `?x` and `knows` errors; the
result is `(false, err)` with that error, not `(false, nil)`. -/
theorem C14_counterexample_no_stop_on_false :
    Node.Equals alice bob = (false, none) ∧
      Node.Equals (Node.Variable "x") knows = (false, some "mismatch type") ∧
      Triple.Equals Node.Equals ⟨alice, Node.Variable "x", bob⟩ ⟨bob, knows, bob⟩ =
        (false, some "mismatch type") ∧
      Triple.Equals Node.Equals ⟨alice, Node.Variable "x", bob⟩ ⟨bob, knows, bob⟩ ≠
        (false, none) := by
  decide

/-- C14 (amended): `Triple.Equals` stops at the first component comparison, in
the order subject, predicate, object, that returns an error, and returns
`(false, err)` with that error; a comparison that returns false without error
does not stop the scan; when no comparison returns an error the result is the
conjunction of the three results, without error. -/
theorem C14_equals_stops_on_error (equals : Node → Node → Bool × Option String)
    (t other : Triple) :
    (∀ err, (equals t.Subject other.Subject).2 = some err →
      Triple.Equals equals t other = (false, some err)) ∧
    (∀ err, (equals t.Subject other.Subject).2 = none →
      (equals t.Predicate other.Predicate).2 = some err →
      Triple.Equals equals t other = (false, some err)) ∧
    (∀ err, (equals t.Subject other.Subject).2 = none →
      (equals t.Predicate other.Predicate).2 = none →
      (equals t.Object other.Object).2 = some err →
      Triple.Equals equals t other = (false, some err)) ∧
    ((equals t.Subject other.Subject).2 = none →
      (equals t.Predicate other.Predicate).2 = none →
      (equals t.Object other.Object).2 = none →
      Triple.Equals equals t other =
        ((equals t.Subject other.Subject).1 && (equals t.Predicate other.Predicate).1 &&
          (equals t.Object other.Object).1, none)) := by
  unfold Triple.Equals
  rcases hs : equals t.Subject other.Subject with ⟨bs, _ | es⟩ <;>
    rcases hp : equals t.Predicate other.Predicate with ⟨bp, _ | ep⟩ <;>
    rcases ho : equals t.Object other.Object with ⟨bo, _ | eo⟩ <;> simp

/-- Witness of C14 (amended): the subjects compare unequal without error and
the predicates do not compare. -/
theorem C14_equals_stops_on_error_witness :
    (Node.Equals alice bob).2 = none ∧
      (Node.Equals (Node.Variable "x") knows).2 = some "mismatch type" ∧
      Triple.Equals Node.Equals ⟨alice, Node.Variable "x", bob⟩ ⟨bob, knows, bob⟩ =
        (false, some "mismatch type") :=
  ⟨rfl, rfl,
    (C14_equals_stops_on_error Node.Equals ⟨alice, Node.Variable "x", bob⟩
      ⟨bob, knows, bob⟩).2.1 "mismatch type" rfl rfl⟩

/-- C15: when a component comparison returns an error, `Triple.Equals` returns
an error, the one of the first erroring component in the order subject,
predicate, object; and it returns `(true, nil)` exactly when the three
component comparisons return `(true, nil)`. -/
theorem C15_equals_error_not_silent (equals : Node → Node → Bool × Option String)
    (t other : Triple) :
    (Triple.Equals equals t other).2 =
      ((equals t.Subject other.Subject).2.orElse fun _ =>
        (equals t.Predicate other.Predicate).2.orElse fun _ =>
          (equals t.Object other.Object).2) ∧
    (((equals t.Subject other.Subject).2.isSome = true ∨
        (equals t.Predicate other.Predicate).2.isSome = true ∨
        (equals t.Object other.Object).2.isSome = true) →
      (Triple.Equals equals t other).2.isSome = true) ∧
    (Triple.Equals equals t other = (true, none) ↔
      equals t.Subject other.Subject = (true, none) ∧
        equals t.Predicate other.Predicate = (true, none) ∧
        equals t.Object other.Object = (true, none)) := by
  unfold Triple.Equals
  rcases hs : equals t.Subject other.Subject with ⟨bs, _ | es⟩ <;>
    rcases hp : equals t.Predicate other.Predicate with ⟨bp, _ | ep⟩ <;>
    rcases ho : equals t.Object other.Object with ⟨bo, _ | eo⟩ <;>
    simp [Option.orElse, and_assoc]

/-- Witness of C15: the objects `bob` and `?x` do not compare. -/
theorem C15_equals_error_not_silent_witness :
    ((Node.Equals alice alice).2.isSome = true ∨ (Node.Equals knows knows).2.isSome = true ∨
        (Node.Equals bob (Node.Variable "x")).2.isSome = true) ∧
      (Triple.Equals Node.Equals ⟨alice, knows, bob⟩
        ⟨alice, knows, Node.Variable "x"⟩).2.isSome = true :=
  ⟨Or.inr (Or.inr rfl),
    (C15_equals_error_not_silent Node.Equals ⟨alice, knows, bob⟩
      ⟨alice, knows, Node.Variable "x"⟩).2.1 (Or.inr (Or.inr rfl))⟩

/-! ## Postcondition of `push` -/

theorem push_keyToValue (b : bimap) (h : b.Bij) (key : Int) (value : Node) (k : Int) :
    (b.push key value).keyToValue k =
      if k = key then some value
      else if b.valueToKey value = some k then none else b.keyToValue k := by
  unfold bimap.push
  cases hk : b.keyToValue key with
  | none =>
    cases hv : b.valueToKey value with
    | none => simp [hv, mapSet]
    | some pk =>
      have hpk : b.keyToValue pk = some value := (h pk value).2 hv
      have hne : pk ≠ key := by intro e; rw [e, hk] at hpk; exact absurd hpk (by simp)
      simp only [hv, mapSet, mapDelete, Option.some.injEq]
      by_cases h1 : k = key
      · subst h1; simp [Ne.symm hne]
      · by_cases h2 : k = pk
        · subst h2; simp [h1]
        · simp [h1, h2, Ne.symm h2]
  | some pv =>
    have hpv : b.valueToKey pv = some key := (h key pv).1 hk
    dsimp only []
    cases hv : (mapDelete b.valueToKey pv) value with
    | none =>
      simp only [mapSet]
      simp only [mapDelete] at hv
      by_cases h1 : k = key
      · simp [h1]
      · simp only [if_neg h1]
        by_cases h3 : value = pv
        · rw [h3, hpv]; simp [Ne.symm h1]
        · simp only [if_neg h3] at hv; simp [hv]
    | some pk =>
      simp only [mapDelete] at hv
      have hvpv : value ≠ pv := by intro e; simp [e] at hv
      simp only [if_neg hvpv] at hv
      have hpk : b.keyToValue pk = some value := (h pk value).2 hv
      have hne : pk ≠ key := by
        intro e; rw [e, hk] at hpk; exact hvpv (Option.some.inj hpk).symm
      simp only [mapSet, mapDelete, hv, Option.some.injEq]
      by_cases h1 : k = key
      · subst h1; simp [Ne.symm hne]
      · by_cases h2 : k = pk
        · subst h2; simp [h1]
        · simp [h1, h2, Ne.symm h2]

theorem push_valueToKey (b : bimap) (key : Int) (value : Node) (v : Node) :
    (b.push key value).valueToKey v =
      if v = value then some key
      else if b.keyToValue key = some v then none else b.valueToKey v := by
  unfold bimap.push
  cases hk : b.keyToValue key with
  | none =>
    cases hv : b.valueToKey value with
    | none => simp [hv, mapSet]
    | some pk => simp [hv, mapSet]
  | some pv =>
    dsimp only []
    cases hv : (mapDelete b.valueToKey pv) value with
    | none =>
      simp only [mapSet, mapDelete, Option.some.injEq]
      by_cases h1 : v = value
      · simp [h1]
      · by_cases h2 : v = pv
        · subst h2; simp [h1]
        · simp [h1, h2, Ne.symm h2]
    | some pk =>
      simp only [mapSet, mapDelete, Option.some.injEq]
      by_cases h1 : v = value
      · simp [h1]
      · by_cases h2 : v = pv
        · subst h2; simp [h1]
        · simp [h1, h2, Ne.symm h2]

/-- C17: on a bimap whose maps are inverse to each other, after
`push(key, value)` the value is located at the key and the key is extracted to
the value; the value the key had before, if another, is no longer located; the
key the value had before, if another, is no longer extracted; and every pair
with another key and another value is mapped as before, in both directions. -/
theorem C17_push_postcondition (b : bimap) (h : b.Bij) (key : Int) (value : Node) :
    (b.push key value).locate value = (key, true) ∧
    (b.push key value).extract key = some value ∧
    (∀ pv, b.extract key = some pv → pv ≠ value → ((b.push key value).locate pv).2 = false) ∧
    (∀ pk, b.locate value = (pk, true) → pk ≠ key → (b.push key value).extract pk = none) ∧
    (∀ k v, k ≠ key → v ≠ value →
      (((b.push key value).extract k = some v ↔ b.extract k = some v) ∧
        ((b.push key value).locate v = (k, true) ↔ b.locate v = (k, true)))) := by
  refine ⟨?_, ?_, ?_, ?_, ?_⟩
  · rw [locate_eq_iff, push_valueToKey b]; simp
  · simp only [bimap.extract]; rw [push_keyToValue b h]; simp
  · intro pv hpv hne
    simp only [bimap.extract] at hpv
    simp only [bimap.locate]
    rw [push_valueToKey b]
    simp [hne, hpv]
  · intro pk hpk hne
    rw [locate_eq_iff] at hpk
    simp only [bimap.extract]
    rw [push_keyToValue b h]
    simp [hne, hpk]
  · intro k v hk hv
    constructor
    · simp only [bimap.extract]
      rw [push_keyToValue b h]
      simp only [if_neg hk]
      by_cases e : b.valueToKey value = some k
      · have := (h k value).2 e
        simp only [e, if_true, this]
        constructor
        · intro x; exact absurd x (by simp)
        · intro x; exact absurd (Option.some.inj x).symm hv
      · simp [e]
    · rw [locate_eq_iff, locate_eq_iff, push_valueToKey b]
      simp only [if_neg hv]
      by_cases e : b.keyToValue key = some v
      · have := (h key v).1 e
        simp only [e, if_true, this]
        constructor
        · intro x; exact absurd x (by simp)
        · intro x; exact absurd (Option.some.inj x).symm hk
      · simp [e]

/-- Witness of C17 on the dictionary holding `0 ↦ alice` and `1 ↦ bob`, for
`push(0, bob)`. -/
theorem C17_push_postcondition_witness :
    (pushAll [(0, alice), (1, bob)]).Bij ∧
    ((pushAll [(0, alice), (1, bob)]).push 0 bob).locate bob = (0, true) ∧
    ((pushAll [(0, alice), (1, bob)]).push 0 bob).extract 0 = some bob ∧
    (((pushAll [(0, alice), (1, bob)]).push 0 bob).locate alice).2 = false ∧
    ((pushAll [(0, alice), (1, bob)]).push 0 bob).extract 1 = none :=
  have hb : (pushAll [(0, alice), (1, bob)]).Bij :=
    foldl_push_bij [(0, alice), (1, bob)] newBimap newBimap_bij
  have hc := C17_push_postcondition (pushAll [(0, alice), (1, bob)]) hb 0 bob
  ⟨hb, hc.1, hc.2.1, hc.2.2.1 alice rfl (by decide), hc.2.2.2.1 1 rfl (by decide)⟩

/-! ## Assignment of identifiers -/

theorem DictIs_registerNode (g : HDTGraph) (acc : List Node) (h : g.DictIs acc) (node : Node) :
    (g.registerNode node).1.DictIs (if node ∈ acc then acc else acc ++ [node]) ∧
      (g.registerNode node).2 =
        (((if node ∈ acc then acc else acc ++ [node]).indexOf node : Nat) : Int) ∧
      (node ∈ acc → (g.registerNode node).1 = g) ∧
      (g.registerNode node).1.root = g.root := by
  obtain ⟨h1, h2, h3, h4⟩ := h
  unfold HDTGraph.registerNode
  by_cases hm : node ∈ acc
  · have hl : g.dictionnary.locate node = (((acc.indexOf node : Nat) : Int), true) := by
      rw [locate_eq_iff, h3]; simp [hm]
    simp only [hl]
    rw [if_pos hm]
    exact ⟨⟨h1, h2, h3, h4⟩, rfl, fun _ => trivial, trivial⟩
  · have hv : g.dictionnary.valueToKey node = none := by rw [h3]; simp [hm]
    have hl : g.dictionnary.locate node = (0, false) := by simp [bimap.locate, hv]
    have hk : g.dictionnary.keyToValue g.nextID = none := by
      rw [h4, h1]; simp
    simp only [hl, push_fresh _ _ _ hk hv]
    rw [if_neg hm]
    refine ⟨⟨?_, ?_, ?_, ?_⟩, ?_, fun x => absurd x hm, trivial⟩
    · show g.nextID + 1 = _
      rw [h1]; simp
    · rw [List.nodup_append]
      refine ⟨h2, by simp, ?_⟩
      intro a ha hb
      simp only [List.mem_singleton] at hb
      subst hb
      exact hm ha
    · intro v
      show mapSet g.dictionnary.valueToKey node g.nextID v = _
      simp only [mapSet]
      by_cases e : v = node
      · subst e
        simp [List.indexOf_append_of_not_mem hm, h1]
      · rw [if_neg e, h3]
        by_cases e1 : v ∈ acc
        · simp [e1, List.indexOf_append_of_mem e1]
        · simp [e1, e]
    · intro k
      show mapSet g.dictionnary.keyToValue g.nextID node k = _
      simp only [mapSet]
      by_cases e : k = g.nextID
      · subst e
        rw [h1]
        simp
      · rw [if_neg e, h4]
        by_cases e1 : 0 ≤ k
        · simp only [e1, if_true]
          have e2 : k.toNat ≠ acc.length := by
            intro x
            apply e
            rw [h1, ← x]
            exact (Int.toNat_of_nonneg e1).symm
          by_cases e3 : k.toNat < acc.length
          · rw [List.getElem?_append_left e3]
          · have e4 : acc.length < k.toNat := by omega
            rw [List.getElem?_eq_none (by omega), List.getElem?_eq_none (by simp; omega)]
        · simp [e1]
    · show g.nextID + 1 - 1 = _
      rw [List.indexOf_append_of_not_mem hm, h1]
      simp

theorem distinctFrom_indexOf (acc ns : List Node) (v : Node) (hv : v ∈ acc) :
    v ∈ distinctFrom acc ns ∧ (distinctFrom acc ns).indexOf v = acc.indexOf v := by
  induction ns generalizing acc with
  | nil => exact ⟨hv, rfl⟩
  | cons n rest ih =>
    simp only [distinctFrom]
    by_cases hm : n ∈ acc
    · simp only [hm, if_true]
      exact ih acc hv
    · simp only [hm, if_false]
      have := ih (acc ++ [n]) (List.mem_append_left _ hv)
      exact ⟨this.1, this.2.trans (List.indexOf_append_of_mem hv)⟩

theorem mem_distinctFrom (acc ns : List Node) (n : Node) (hn : n ∈ ns) :
    n ∈ distinctFrom acc ns := by
  induction ns generalizing acc with
  | nil => simp at hn
  | cons m rest ih =>
    simp only [distinctFrom]
    rcases List.mem_cons.1 hn with e | e
    · subst e
      by_cases hm : n ∈ acc
      · simp only [hm, if_true]
        exact (distinctFrom_indexOf acc rest n hm).1
      · simp only [hm, if_false]
        exact (distinctFrom_indexOf (acc ++ [n]) rest n (by simp)).1
    · exact ih _ e

theorem DictIs_registerAll (ns : List Node) (g : HDTGraph) (acc : List Node)
    (h : g.DictIs acc) :
    (registerAll g ns).1.DictIs (distinctFrom acc ns) ∧
      (registerAll g ns).2 =
        ns.map (fun n => (((distinctFrom acc ns).indexOf n : Nat) : Int)) := by
  induction ns generalizing g acc with
  | nil => exact ⟨h, rfl⟩
  | cons n rest ih =>
    obtain ⟨a1, a2, _, _⟩ := DictIs_registerNode g acc h n
    obtain ⟨b1, b2⟩ := ih (g.registerNode n).1 _ a1
    simp only [registerAll, distinctFrom, List.map_cons]
    refine ⟨b1, ?_⟩
    rw [b2, a2]
    congr 2
    have hmem : n ∈ (if n ∈ acc then acc else acc ++ [n]) := by
      by_cases hm : n ∈ acc <;> simp [hm]
    rw [(distinctFrom_indexOf _ rest n hmem).2]

theorem NewHDTGraph_DictIs : NewHDTGraph.DictIs [] := by
  refine ⟨rfl, List.nodup_nil, fun v => ?_, fun k => ?_⟩
  · simp [NewHDTGraph, newBimap]
  · simp [NewHDTGraph, newBimap]

/-- C16: after every sequence of `registerNode` calls on the empty store, the
`i`-th distinct term registered, counting from 0, is mapped to the id `i` in
both directions and `nextID` is the number of distinct terms; every call
returned the position of its term among the distinct terms; registering a
registered term again returns that id and leaves the store as it is; and no
two terms share an id. -/
theorem C16_identifier_assignment (ns : List Node) :
    (registerAll NewHDTGraph ns).1.nextID = (distinctFrom [] ns).length ∧
    (∀ i (hi : i < (distinctFrom [] ns).length),
      (registerAll NewHDTGraph ns).1.dictionnary.locate ((distinctFrom [] ns)[i]) =
          ((i : Int), true) ∧
        (registerAll NewHDTGraph ns).1.dictionnary.extract (i : Int) =
          some ((distinctFrom [] ns)[i])) ∧
    (registerAll NewHDTGraph ns).2 =
      ns.map (fun n => (((distinctFrom [] ns).indexOf n : Nat) : Int)) ∧
    (∀ n ∈ ns, (registerAll NewHDTGraph ns).1.registerNode n =
      ((registerAll NewHDTGraph ns).1, (((distinctFrom [] ns).indexOf n : Nat) : Int))) ∧
    (∀ a b k, (registerAll NewHDTGraph ns).1.dictionnary.locate a = (k, true) →
      (registerAll NewHDTGraph ns).1.dictionnary.locate b = (k, true) → a = b) := by
  obtain ⟨hd, hids⟩ := DictIs_registerAll ns NewHDTGraph [] NewHDTGraph_DictIs
  obtain ⟨h1, h2, h3, h4⟩ := hd
  refine ⟨h1, ?_, hids, ?_, ?_⟩
  · intro i hi
    constructor
    · rw [locate_eq_iff, h3]
      simp [List.getElem_mem, List.indexOf_getElem h2 i hi]
    · simp only [bimap.extract]
      rw [h4]
      simp [hi]
  · intro n hn
    have hm : n ∈ distinctFrom [] ns := mem_distinctFrom [] ns n hn
    have hl : (registerAll NewHDTGraph ns).1.dictionnary.locate n =
        ((((distinctFrom [] ns).indexOf n : Nat) : Int), true) := by
      rw [locate_eq_iff, h3]; simp [hm]
    simp [HDTGraph.registerNode, hl]
  · intro a b k ha hb
    rw [locate_eq_iff, h3] at ha hb
    by_cases ma : a ∈ distinctFrom [] ns
    · by_cases mb : b ∈ distinctFrom [] ns
      · simp only [ma, mb, if_true, Option.some.injEq] at ha hb
        have : (distinctFrom [] ns).indexOf a = (distinctFrom [] ns).indexOf b := by
          have := ha.trans hb.symm
          exact_mod_cast this
        exact (List.indexOf_inj ma mb).1 this
      · simp [mb] at hb
    · simp [ma] at ha

/-! ## Removal for a pattern of bound terms -/

/-- A removal walk over bound terms that returns leaves the node as it is. -/
theorem removeNodes_bound_unchanged (g : HDTGraph) (datas : List Node)
    (hb : ∀ x ∈ datas, x.isBnode = false) (root root1 : bitmapNode)
    (hr : removeNodes g root datas = Except.ok root1) : root1 = root := by
  induction datas generalizing root root1 with
  | nil => simp [removeNodes] at hr
  | cons node rest ih =>
    have hn : node.isBnode = false := hb node (List.mem_cons_self _ _)
    unfold removeNodes at hr
    simp only [hn, Bool.false_eq_true, if_false] at hr
    cases hl : g.dictionnary.locate node with
    | mk id found =>
      cases found with
      | false =>
        simp only [hl] at hr
        cases hr; rfl
      | true =>
        simp only [hl] at hr
        cases hs : sonsGet root.sons id with
        | none =>
          simp only [hs] at hr
          cases hr; rfl
        | some son =>
          simp only [hs] at hr
          cases hq : removeNodes g son rest with
          | error e => simp [hq] at hr
          | ok son1 =>
            simp only [hq] at hr
            cases hr
            have := ih (fun x hx => hb x (List.mem_cons_of_mem _ hx)) son son1 hq
            rw [this, sonsPut_self _ _ _ hs]
            exact bitmapNode.eta root

/-- C18 (the code at the failing input): in the store holding `alice knows
bob`, the pattern `alice bob knows` has its three terms in the dictionary and
`bob`, of id 2, is not a child of the node of `alice`; `Delete(alice, bob,
knows)` walks `[alice, knows, bob]`, reaches the leaf and panics on the empty
list of terms. -/
theorem C18_delete_unmatched_panics :
    (addAll [⟨alice, knows, bob⟩]).dictionnary.locate bob = (2, true) ∧
      (nodeAt (addAll [⟨alice, knows, bob⟩]).root [0, 2]).isSome = false ∧
      (addAll [⟨alice, knows, bob⟩]).Delete alice bob knows =
        Except.error Fault.indexOutOfRange := by
  refine ⟨by decide, by decide, rfl⟩

/-! ## Consistency of the trie with the dictionary -/

theorem TrieOK_nodeAt (d : bimap) (q : List Int) :
    ∀ (n : Nat) (node m : bitmapNode), TrieOK d n node → nodeAt node q = some m → q ≠ [] →
      (d.extract m.id).isSome = true := by
  induction q with
  | nil => intro n node m _ _ h; exact absurd rfl h
  | cons k q1 ih =>
    intro n node m ht hn _
    simp only [nodeAt] at hn
    cases hs : sonsGet node.sons k with
    | none => simp [hs] at hn
    | some son =>
      simp only [hs] at hn
      cases n with
      | zero =>
        simp only [TrieOK] at ht
        simp [ht, sonsGet] at hs
      | succ n =>
        simp only [TrieOK] at ht
        obtain ⟨e1, e2, e3⟩ := ht.2 _ (sonsGet_mem _ _ _ hs)
        cases q1 with
        | nil =>
          simp only [nodeAt, Option.some.injEq] at hn
          subst hn
          simp only [] at e1 e2
          rw [e1]; exact e2
        | cons k2 q2 => exact ih n son m e3 hn (by simp)

theorem rangeSons_error (visit : bitmapNode → Except Fault Trace)
    (sons : List (Int × bitmapNode)) (e : Fault) (h : rangeSons visit sons = Except.error e) :
    ∃ p ∈ sons, visit p.2 = Except.error e := by
  induction sons with
  | nil => simp [rangeSons] at h
  | cons p rest ih =>
    obtain ⟨k, son⟩ := p
    simp only [rangeSons] at h
    cases hv : visit son with
    | error e1 =>
      simp only [hv] at h
      cases h
      exact ⟨(k, son), List.mem_cons_self _ _, hv⟩
    | ok t =>
      simp only [hv] at h
      cases hr : rangeSons visit rest with
      | error e1 =>
        simp only [hr] at h
        cases h
        obtain ⟨p, hp, hx⟩ := ih hr
        exact ⟨p, List.mem_cons_of_mem _ hp, hx⟩
      | ok u => simp [hr] at h

/-- No traversal of a well-shaped trie over a bijective dictionary reaches the
error of the reverse resolution. -/
theorem query_no_dict_fault (g : HDTGraph) (hb : g.dictionnary.Bij) (n : Nat) :
    ∀ (root : Option bitmapNode) (datas : List Node) (pre : List Int),
      pre.length + n = 3 → (∀ r, root = some r → TrieOK g.dictionnary n r) →
      (∀ id ∈ pre, (g.dictionnary.extract id).isSome = true) →
      queryNodes g root datas pre ≠ Except.error Fault.notInDictionnary := by
  induction n with
  | zero =>
    intro root datas pre hl _ hp
    have hl3 : pre.length = 3 := by simpa using hl
    obtain ⟨t, ht1⟩ := tripleOf_some _ pre hl3 hp
    unfold tripleOf at ht1
    cases datas <;> simp only [queryNodes, hl3, ↓reduceIte, ht1] <;> simp
  | succ n ih =>
    intro root datas pre hl ht hp
    have hne : ¬ pre.length = 3 := by omega
    cases datas with
    | nil => simp [queryNodes, hne]
    | cons x rest =>
      cases root with
      | none => cases hx : x.isBnode <;> simp [queryNodes, hne, hx]
      | some r =>
        have htr := ht r rfl
        simp only [TrieOK] at htr
        cases hx : x.isBnode with
        | true =>
          simp only [queryNodes, hne, if_false, hx, if_true]
          cases hq : rangeSons (fun son => queryNodes g (some son) rest (pre ++ [son.id]))
              r.sons with
          | ok t => simp
          | error e =>
            simp only [ne_eq, Except.error.injEq]
            intro he
            subst he
            obtain ⟨p, hp1, hp2⟩ := rangeSons_error _ _ _ hq
            obtain ⟨e1, e2, e3⟩ := htr.2 p hp1
            refine ih (some p.2) rest (pre ++ [p.2.id]) ?_ ?_ ?_ hp2
            · simp only [List.length_append, List.length_singleton]; omega
            · intro r1 hr1; cases hr1; exact e3
            · intro id hid
              rcases List.mem_append.1 hid with hid | hid
              · exact hp id hid
              · simp only [List.mem_singleton] at hid
                rw [hid, e1]; exact e2
        | false =>
          simp only [queryNodes, hne, if_false, hx, Bool.false_eq_true]
          cases hl1 : g.dictionnary.locate x with
          | mk id found =>
            cases found with
            | false => simp
            | true =>
              have hcond : ((sonsGet r.sons id).isSome || (sonsGet r.sons id).isNone) = true := by
                cases sonsGet r.sons id <;> rfl
              simp only [Bool.true_and, hcond, if_true]
              cases hq : queryNodes g (sonsGet r.sons id) rest (pre ++ [id]) with
              | ok t => simp
              | error e =>
                simp only [ne_eq, Except.error.injEq]
                intro he
                subst he
                refine ih (sonsGet r.sons id) rest (pre ++ [id]) ?_ ?_ ?_ hq
                · simp only [List.length_append, List.length_singleton]; omega
                · intro r1 hr1
                  exact (htr.2 _ (sonsGet_mem _ _ _ hr1)).2.2
                · intro i hid
                  rcases List.mem_append.1 hid with hid | hid
                  · exact hp i hid
                  · simp only [List.mem_singleton] at hid
                    rw [hid, extract_of_locate _ hb _ _ hl1]; rfl

theorem TrieOK_path_keys (d : bimap) (q : List Int) :
    ∀ (n : Nat) (node : bitmapNode), TrieOK d n node → (nodeAt node q).isSome = true →
      ∀ id ∈ q, (d.extract id).isSome = true := by
  induction q with
  | nil => intro n node _ _ id hid; simp at hid
  | cons k q1 ih =>
    intro n node ht hn id hid
    simp only [nodeAt] at hn
    cases hs : sonsGet node.sons k with
    | none => simp [hs] at hn
    | some son =>
      simp only [hs] at hn
      cases n with
      | zero =>
        simp only [TrieOK] at ht
        simp [ht, sonsGet] at hs
      | succ n =>
        simp only [TrieOK] at ht
        obtain ⟨_, e2, e3⟩ := ht.2 _ (sonsGet_mem _ _ _ hs)
        rcases List.mem_cons.1 hid with e | e
        · rw [e]; exact e2
        · exact ih n son e3 hn id e

/-- C20: in every store reached from the empty store by `Add` and `Delete`
calls, the identifier of every node below the root of the trie is a key of the
dictionary and lies from 0 below `nextID`; the reverse resolution of every
full path of the trie succeeds; and no `Filter` traversal, whatever its
pattern, reaches the panic of the reverse resolution. -/
theorem C20_trie_ids_in_dictionary (g : HDTGraph) (h : Reachable g) :
    (∀ q n, q ≠ [] → nodeAt g.root q = some n →
      (g.dictionnary.extract n.id).isSome = true ∧ 0 ≤ n.id ∧ n.id < g.nextID) ∧
    (∀ i j k, (nodeAt g.root [i, j, k]).isSome = true →
      (bitmapTripleToTriple g.dictionnary i j k).isSome = true) ∧
    (∀ s p o, (g.Filter s p o).run ≠ Except.error Fault.notInDictionnary) := by
  have hw := h.wf
  refine ⟨?_, ?_, ?_⟩
  · intro q n hq hn
    have he := TrieOK_nodeAt g.dictionnary q 3 g.root n hw.trie hn hq
    exact ⟨he, hw.dict.2.2 n.id he⟩
  · intro i j k hn
    obtain ⟨t, ht⟩ := tripleOf_some g.dictionnary [i, j, k] rfl
      (TrieOK_path_keys g.dictionnary [i, j, k] 3 g.root hw.trie hn)
    simp only [tripleOf, List.getD_cons_zero, List.getD_cons_succ] at ht
    rw [ht]; rfl
  · intro s p o
    exact query_no_dict_fault g hw.dict.1 3 (some g.root) [s, p, o] [] rfl
      (fun r hr => by cases hr; exact hw.trie) (by simp)

/-- Witness of C20 on the store of the scenario. -/
theorem C20_trie_ids_in_dictionary_witness :
    Reachable friends ∧
      (friends.Filter alice knows bob).run ≠ Except.error Fault.notInDictionnary :=
  ⟨Reachable.add _ _ (Reachable.add _ _ Reachable.empty),
    (C20_trie_ids_in_dictionary friends
      (Reachable.add _ _ (Reachable.add _ _ Reachable.empty))).2.2 alice knows bob⟩

/-! ## Rejection of a malformed pattern -/

/-- C19: on a stack of more than three values `TokenEnd.Interpret` and
`TokenSep.Interpret` for a separator other than `"["`, and on a stack of more
than two values `TokenSep.Interpret` for `"["`, return the error whose text
ends with the position of the token, send no triple and leave the stack as it
is. -/
theorem C19_malformed_pattern_rejected (position : tokenPosition → String) :
    (∀ (t : TokenEnd) (nodeStack : List StackItem), 3 < stackLen nodeStack →
      TokenEnd.Interpret position t nodeStack =
        ⟨some ("encountered a malformed triple pattern at " ++ position t.pos),
          nodeStack, []⟩) ∧
    (∀ (random : Int) (t : TokenSep) (nodeStack : List StackItem), t.value ≠ "[" →
      3 < stackLen nodeStack →
      TokenSep.Interpret position random t nodeStack =
        ⟨some ("encountered a malformed triple pattern at " ++ position t.pos),
          nodeStack, []⟩) ∧
    (∀ (random : Int) (t : TokenSep) (nodeStack : List StackItem), t.value = "[" →
      2 < stackLen nodeStack →
      TokenSep.Interpret position random t nodeStack =
        ⟨some ("encountered a malformed triple pattern at " ++ position t.pos),
          nodeStack, []⟩) := by
  refine ⟨?_, ?_, ?_⟩
  · intro t nodeStack h
    simp [TokenEnd.Interpret, h]
  · intro random t nodeStack hv h
    simp [TokenSep.Interpret, hv, h]
  · intro random t nodeStack hv h
    simp [TokenSep.Interpret, hv, h]

/-- Witness of C19: the separator `";"` on a stack of four terms. -/
theorem C19_malformed_pattern_rejected_witness :
    3 < stackLen [StackItem.node bob, StackItem.node knows, StackItem.node alice,
        StackItem.node carol] ∧
      TokenSep.Interpret positionText 7 ⟨";", ⟨3, 14⟩⟩
          [StackItem.node bob, StackItem.node knows, StackItem.node alice,
            StackItem.node carol] =
        ⟨some ("encountered a malformed triple pattern at " ++ positionText ⟨3, 14⟩),
          [StackItem.node bob, StackItem.node knows, StackItem.node alice,
            StackItem.node carol], []⟩ :=
  ⟨by decide,
    (C19_malformed_pattern_rejected positionText).2.1 7 ⟨";", ⟨3, 14⟩⟩
      [StackItem.node bob, StackItem.node knows, StackItem.node alice, StackItem.node carol]
      (by decide) (by decide)⟩

/-! ## Errors of the separator after a send -/

/-- C21 (the code at the failing input): for the separator `"."` on the stack
holding `bob`, `knows`, `alice` (top first), `TokenSep.Interpret` sends the
triple `alice knows bob`, empties the stack and then returns the error
`Unexpected separator token`; for the separators `"["`, `";"` and `","`, and
on any stack, an error is returned only when no triple was sent. -/
theorem C21_error_after_send :
    (TokenSep.Interpret positionText 7 ⟨".", ⟨3, 14⟩⟩
        [StackItem.node bob, StackItem.node knows, StackItem.node alice]).err =
      some ("Unexpected separator token " ++ "." ++ " - at " ++ positionText ⟨3, 14⟩) ∧
    (TokenSep.Interpret positionText 7 ⟨".", ⟨3, 14⟩⟩
        [StackItem.node bob, StackItem.node knows, StackItem.node alice]).out =
      [⟨alice, knows, bob⟩] ∧
    (TokenSep.Interpret positionText 7 ⟨".", ⟨3, 14⟩⟩
        [StackItem.node bob, StackItem.node knows, StackItem.node alice]).nodeStack = [] ∧
    ∀ (position : tokenPosition → String) (random : Int) (t : TokenSep)
      (nodeStack : List StackItem),
      (t.value = "[" ∨ t.value = ";" ∨ t.value = ",") →
      (TokenSep.Interpret position random t nodeStack).err ≠ none →
      (TokenSep.Interpret position random t nodeStack).out = [] := by
  refine ⟨rfl, by decide, by decide, ?_⟩
  intro position random t nodeStack hv
  unfold TokenSep.Interpret
  by_cases h1 : t.value = "["
  · simp only [h1, if_true]
    by_cases h2 : stackLen nodeStack > 2
    · simp [h2]
    · simp only [h2, if_false]
      cases (stackPop nodeStack).1.asNode <;>
        cases (stackPop (stackPop nodeStack).2).1.asNode <;> simp
  · simp only [h1, if_false]
    by_cases h2 : stackLen nodeStack > 3
    · simp [h2]
    · simp only [h2, if_false]
      have h3 : t.value = ";" ∨ t.value = "," := by
        rcases hv with h | h
        · exact absurd h h1
        · exact h
      cases (stackPop nodeStack).1.asNode <;>
        cases (stackPop (stackPop nodeStack).2).1.asNode <;>
        cases (stackPop (stackPop (stackPop nodeStack).2).2).1.asNode <;>
        rcases h3 with h | h <;> simp [h]

/-! ## Completion of `Filter` on a store holding one triple -/

theorem Add_idem (g : HDTGraph) (h : g.WF) (t : Triple) : (g.Add t).Add t = g.Add t := by
  obtain ⟨i, j, k, l1, l2, l3, hr, _, _⟩ := Add_spec g h t
  apply Add_again (g.Add t) t i j k l1 l2 l3
  rw [hr]
  exact nodeAt_updateNodes_self _ _

theorem foldl_Add_same (t : Triple) (rest : List Triple) (hall : ∀ x ∈ rest, x = t)
    (g : HDTGraph) (h : g.WF) : rest.foldl HDTGraph.Add (g.Add t) = g.Add t := by
  induction rest with
  | nil => rfl
  | cons x r ih =>
    have hx : x = t := hall x (List.mem_cons_self _ _)
    subst hx
    simp only [List.foldl_cons, Add_idem g h x]
    exact ih (fun y hy => hall y (List.mem_cons_of_mem _ hy))

theorem addAll_same (t : Triple) (ts : List Triple) (hne : ts ≠ [])
    (hall : ∀ x ∈ ts, x = t) : addAll ts = NewHDTGraph.Add t := by
  cases ts with
  | nil => exact absurd rfl hne
  | cons x rest =>
    have hx : x = t := hall x (List.mem_cons_self _ _)
    subst hx
    exact foldl_Add_same x rest (fun y hy => hall y (List.mem_cons_of_mem _ hy))
      NewHDTGraph NewHDTGraph_WF

/-- The traversal of a trie made of one path, for the bound terms of that
path: one triple is sent, four signals are made and no node is pruned. -/
theorem query_chain (g : HDTGraph) (hb : g.dictionnary.Bij) (r i j k : Int) (s p o : Node)
    (bs : s.isBnode = false) (bp : p.isBnode = false) (bo : o.isBnode = false)
    (l1 : g.dictionnary.locate s = (i, true)) (l2 : g.dictionnary.locate p = (j, true))
    (l3 : g.dictionnary.locate o = (k, true)) :
    queryNodes g
        (some (bitmapNode.mk r
          [(i, bitmapNode.mk i [(j, bitmapNode.mk j [(k, bitmapNode.mk k [])])])]))
        [s, p, o] [] =
      Except.ok ⟨[⟨s, p, o⟩], 4, []⟩ := by
  have e1 := extract_of_locate _ hb _ _ l1
  have e2 := extract_of_locate _ hb _ _ l2
  have e3 := extract_of_locate _ hb _ _ l3
  simp [queryNodes, bs, bp, bo, l1, l2, l3, sonsGet, prunedSons, bitmapTripleToTriple, e1, e2,
    e3, NewTriple]

theorem depth_chain (r i j k : Int) :
    (bitmapNode.mk r
      [(i, bitmapNode.mk i [(j, bitmapNode.mk j [(k, bitmapNode.mk k [])])])]).depth = 3 := by
  simp [bitmapNode.depth, depthSons]

/-- C2 (as stated, refuted): with a blank node as subject the pattern of an
added triple fans out: the traversal sends two triples for it, and with seven
signals against four registered the call does not end by closing the channel
after one triple. -/
theorem C2_counterexample_blank_subject :
    (⟨anon, knows, bob⟩ : Triple) ∈ [(⟨anon, knows, bob⟩ : Triple), ⟨alice, knows, bob⟩] ∧
      (addAll [⟨anon, knows, bob⟩, ⟨alice, knows, bob⟩]).emitted anon knows bob =
        some [⟨anon, knows, bob⟩, ⟨alice, knows, bob⟩] ∧
      (addAll [⟨anon, knows, bob⟩, ⟨alice, knows, bob⟩]).FilterOutcome anon knows bob =
        Outcome.negativeCounter := by
  decide

/-- C2 (amended): in a store built by `Add` calls that all add the same triple,
none of whose terms is a blank node, `Filter` called with the three terms of
the triple delivers exactly one triple, equal to it, and closes the channel. -/
theorem C2_round_trip_bound (ts : List Triple) (t : Triple) (hne : ts ≠ [])
    (hall : ∀ x ∈ ts, x = t) (hs : t.Subject.isBnode = false)
    (hp : t.Predicate.isBnode = false) (ho : t.Object.isBnode = false) :
    (addAll ts).FilterOutcome t.Subject t.Predicate t.Object = Outcome.closed [t] := by
  rw [addAll_same t ts hne hall]
  obtain ⟨i, j, k, l1, l2, l3, hr, _, hw⟩ := Add_spec NewHDTGraph NewHDTGraph_WF t
  have hroot : (NewHDTGraph.Add t).root =
      bitmapNode.mk (-1)
        [(i, bitmapNode.mk i [(j, bitmapNode.mk j [(k, bitmapNode.mk k [])])])] := by
    rw [← single_path]
    exact hr
  have hq := query_chain (NewHDTGraph.Add t) hw.dict.1 (-1) i j k t.Subject t.Predicate
    t.Object hs hp ho l1 l2 l3
  simp only [HDTGraph.FilterOutcome, HDTGraph.Filter, FilterRun.outcome, hroot, hq, depth_chain,
    Trace.doneCalls]
  simp

/-- Witness of C2 (amended) on the store in which `alice knows bob` was added
twice. -/
theorem C2_round_trip_bound_witness :
    (addAll [⟨alice, knows, bob⟩, ⟨alice, knows, bob⟩]).FilterOutcome alice knows bob =
      Outcome.closed [⟨alice, knows, bob⟩] :=
  C2_round_trip_bound [⟨alice, knows, bob⟩, ⟨alice, knows, bob⟩] ⟨alice, knows, bob⟩
    (by decide) (by decide) rfl rfl rfl

/-! ## Completion of `Filter` for a pattern of blank nodes -/

/-- The traversal of a well-formed store for a pattern of three blank nodes:
it returns, sends once each the triples of the paths of the trie, signals once
per node and prunes nothing. -/
theorem query_all_paths (g : HDTGraph) (hw : g.WF) (b1 b2 b3 : Node)
    (h1 : b1.isBnode = true) (h2 : b2.isBnode = true) (h3 : b3.isBnode = true) :
    ∃ t, queryNodes g (some g.root) [b1, b2, b3] [] = Except.ok t ∧
      t.out.Nodup ∧
      (∀ x, x ∈ t.out ↔ ∃ i j k, (nodeAt g.root [i, j, k]).isSome = true ∧
        bitmapTripleToTriple g.dictionnary i j k = some x) ∧
      t.done = g.root.nodeCount ∧ t.pruned = [] := by
  obtain ⟨t, e1, e2, e3, e4⟩ := query_blank g 3 g.root [b1, b2, b3] [] rfl rfl
    (by
      intro x hx
      simp only [List.mem_cons, List.mem_singleton, List.not_mem_nil, or_false] at hx
      rcases hx with e | e | e <;> rw [e] <;> assumption)
    hw.trie (by simp)
  simp only [List.nil_append] at e2
  have hmem : ∀ x, x ∈ t.out ↔ ∃ q ∈ pathsBelow 3 g.root, tripleOf g.dictionnary q = some x := by
    intro x
    have : x ∈ t.out ↔ some x ∈ t.out.map some := by simp
    rw [this, e2, List.mem_map]
  refine ⟨t, e1, ?_, ?_, e3, e4⟩
  · have hn : (t.out.map some).Nodup := by
      rw [e2]
      apply List.Nodup.map_on _ (nodup_pathsBelow _ 3 _ hw.trie)
      intro q hq q1 hq1 e
      obtain ⟨a, b, c, rfl⟩ := length_three q ((mem_pathsBelow_iff _ 3 _ q hw.trie).1 hq).1
      obtain ⟨a1, b1, c1, rfl⟩ := length_three q1 ((mem_pathsBelow_iff _ 3 _ q1 hw.trie).1 hq1).1
      have hs : ∃ x, x ∈ t.out ∧ some x = tripleOf g.dictionnary [a, b, c] := by
        have : tripleOf g.dictionnary [a, b, c] ∈ t.out.map some := by
          rw [e2]; exact List.mem_map.2 ⟨_, hq, rfl⟩
        exact List.mem_map.1 this
      obtain ⟨x, _, hx⟩ := hs
      exact tripleOf_inj _ hw.dict.1 a b c a1 b1 c1 x hx.symm (e ▸ hx.symm)
    exact List.Nodup.of_map some hn
  · intro x
    rw [hmem]
    constructor
    · rintro ⟨q, hq, hx⟩
      obtain ⟨hl, hn⟩ := (mem_pathsBelow_iff _ 3 _ q hw.trie).1 hq
      obtain ⟨a, b, c, rfl⟩ := length_three q hl
      exact ⟨a, b, c, hn, hx⟩
    · rintro ⟨i, j, k, hn, hx⟩
      exact ⟨[i, j, k], (mem_pathsBelow_iff _ 3 _ _ hw.trie).2 ⟨rfl, hn⟩, hx⟩

/-- C5 (as stated, refuted): with a variable at the three positions the
traversal sends nothing from a store that holds two triples, and the channel is
never closed. -/
theorem C5_counterexample_variables :
    (⟨alice, knows, bob⟩ : Triple) ∈ [(⟨alice, knows, bob⟩ : Triple), ⟨alice, knows, carol⟩] ∧
      friends.emitted (Node.Variable "s") (Node.Variable "p") (Node.Variable "o") = some [] ∧
      friends.FilterOutcome (Node.Variable "s") (Node.Variable "p") (Node.Variable "o") =
        Outcome.neverClosed [] := by
  decide

/-- C5 (amended): in a store built by `Add` and `Delete` calls whose trie has as
many nodes as `Filter` registers signals (`root.depth() + 1`: the trie is one
path), `Filter` called with a blank node at the three positions closes the
channel after delivering, each once, exactly the triples of the paths of
length three of the trie; in a store built by `Add` calls only these are the
triples added. -/
theorem C5_blank_fan_out (g : HDTGraph) (hg : Reachable g)
    (hc : g.root.nodeCount = g.root.depth + 1) (b1 b2 b3 : Node)
    (h1 : b1.isBnode = true) (h2 : b2.isBnode = true) (h3 : b3.isBnode = true) :
    ∃ out, g.FilterOutcome b1 b2 b3 = Outcome.closed out ∧ out.Nodup ∧
      (∀ t, t ∈ out ↔ ∃ i j k, (nodeAt g.root [i, j, k]).isSome = true ∧
        bitmapTripleToTriple g.dictionnary i j k = some t) ∧
      ∀ ts, g = addAll ts → ∀ t, t ∈ out ↔ t ∈ ts := by
  obtain ⟨t, e, hn, hm, hd, hp⟩ := query_all_paths g hg.wf b1 b2 b3 h1 h2 h3
  refine ⟨t.out, ?_, hn, hm, ?_⟩
  · simp [HDTGraph.FilterOutcome, HDTGraph.Filter, FilterRun.outcome, e, Trace.doneCalls, hd,
      hp, hc]
  · intro ts hts x
    subst hts
    obtain ⟨u, eu, _, hu, _, _⟩ :=
      query_all (addAll ts) ts (addAll_Holds ts) b1 b2 b3 h1 h2 h3
    have : u = t := by
      rw [e] at eu
      exact (Except.ok.inj eu).symm
    rw [← this]
    exact hu x

/-- Witness of C5 (amended) on the store holding one triple, and on the store
of the scenario after `Delete(alice, bob, _:b0)`, which leaves the node of
`alice` without children. -/
theorem C5_blank_fan_out_witness :
    (∃ out, (addAll [⟨alice, knows, bob⟩]).FilterOutcome anon anon anon = Outcome.closed out ∧
      out.Nodup ∧
      (∀ t, t ∈ out ↔ ∃ i j k,
        (nodeAt (addAll [⟨alice, knows, bob⟩]).root [i, j, k]).isSome = true ∧
        bitmapTripleToTriple (addAll [⟨alice, knows, bob⟩]).dictionnary i j k = some t) ∧
      ∀ ts, addAll [⟨alice, knows, bob⟩] = addAll ts → ∀ t, t ∈ out ↔ t ∈ ts) ∧
    friends.Delete alice bob anon =
      Except.ok { friends with root := bitmapNode.mk (-1) [(0, bitmapNode.mk 0 [])] } ∧
    ∃ out, HDTGraph.FilterOutcome
        { friends with root := bitmapNode.mk (-1) [(0, bitmapNode.mk 0 [])] }
        anon anon anon = Outcome.closed out ∧ out = [] :=
  ⟨C5_blank_fan_out (addAll [⟨alice, knows, bob⟩]) (Reachable.add _ _ Reachable.empty)
      (by decide) anon anon anon rfl rfl rfl,
    rfl,
    (C5_blank_fan_out { friends with root := bitmapNode.mk (-1) [(0, bitmapNode.mk 0 [])] }
      (Reachable.delete friends _ alice bob anon
        (Reachable.add _ _ (Reachable.add _ _ Reachable.empty)) rfl)
      (by decide) anon anon anon rfl rfl rfl).elim
      (fun out h => ⟨out, h.1, by
        have := h.1
        have e : HDTGraph.FilterOutcome
            { friends with root := bitmapNode.mk (-1) [(0, bitmapNode.mk 0 [])] }
            anon anon anon = Outcome.closed [] := by decide
        rw [e] at this
        exact (Outcome.closed.inj this).symm⟩)⟩

/-! ## Completion signals -/

/-- C9 (the code at the failing input): for the store holding `alice knows bob`
and `alice knows carol` and the pattern of three blank nodes, `Filter`
registers four completion signals and the traversal makes five, one per node
of the trie, so the counter of the wait group goes below zero; in every store
built by `Add` calls the traversal for three blank nodes signals once per node
of the trie and calls `updateCounter` on none. -/
theorem C9_signals_exceed_registered :
    (friends.Filter anon anon anon).registered = 4 ∧
    friends.signals anon anon anon = some 5 ∧
    friends.root.nodeCount = 5 ∧
    friends.FilterOutcome anon anon anon = Outcome.negativeCounter ∧
    ∀ (ts : List Triple) (b1 b2 b3 : Node), b1.isBnode = true → b2.isBnode = true →
      b3.isBnode = true →
      ∃ t, ((addAll ts).Filter b1 b2 b3).run = Except.ok t ∧
        t.done = (addAll ts).root.nodeCount ∧ t.pruned = [] := by
  refine ⟨by decide, by decide, by decide, by decide, ?_⟩
  intro ts b1 b2 b3 h1 h2 h3
  obtain ⟨t, e, _, _, hd, hp⟩ := query_all (addAll ts) ts (addAll_Holds ts) b1 b2 b3 h1 h2 h3
  exact ⟨t, e, hd, hp⟩

end Joseki
